import Mathlib

/-!
# Verification of the NOC-copilot network-config core

A shallow embedding, over `List Char`, of the deterministic core of the
repository: the secret redactor and block parser of `ingestion.py`, the
comparison engine of `chat_logic.py` (`RAGChatbot.compare_configs`), and the
identity short-circuit of `app.py`.  Python strings are modelled as `List Char`
(`Str`), Python `re.sub` for the five concrete secret patterns is modelled by
an explicit leftmost/greedy substitution function, dictionaries keyed by
`parent_line` are modelled as `Str → Option _` maps built by a left fold
(later insertions overwrite earlier ones, as in Python), and wall-clock
latency is passed in as an explicit parameter.
-/

namespace NocCopilot

/-- Python strings as lists of characters. -/
abbrev Str := List Char

/-- Shorthand turning a Lean string literal into a `Str`. -/
def S (s : String) : Str := s.data

/-- ASCII whitespace recognized by Python's `str.strip()` / `str.split()`. -/
def isPySpace (c : Char) : Bool :=
  c = ' ' || c = '\t' || c = '\n' || c = '\r' || c = '\x0b' || c = '\x0c'

/-- Python `str.strip()`: drop leading and trailing whitespace. -/
def pyStrip (s : Str) : Str :=
  ((s.dropWhile isPySpace).reverse.dropWhile isPySpace).reverse

/-- Python `str.lower()` (ASCII approximation, enough for the keyword scans). -/
def pyLower (s : Str) : Str := s.map Char.toLower

/-- Python `needle in hay` substring test, scanning left to right. -/
def occursIn (needle : Str) : Str → Bool
  | [] => needle.isEmpty
  | c :: cs => needle.isPrefixOf (c :: cs) || occursIn needle cs

/-- The text up to (excluding) the leftmost occurrence of `sep`, or the whole
string when `sep` does not occur; the slice Python's `split(sep)[1]` yields
after a leading separator. -/
def upToOcc (sep : Str) : Str → Str
  | [] => []
  | c :: cs => if sep.isPrefixOf (c :: cs) then [] else c :: upToOcc sep cs

/-- First whitespace-delimited token, Python `s.split()[0]` (total version). -/
def firstToken (s : Str) : Str :=
  (s.dropWhile isPySpace).takeWhile (fun c => !isPySpace c)

/-- `[a-zA-Z0-9]` of `SECRETS_PATTERNS`. -/
def isAlnum (c : Char) : Bool :=
  (('a' ≤ c && c ≤ 'z') || ('A' ≤ c && c ≤ 'Z') || ('0' ≤ c && c ≤ '9'))

/-- `[a-zA-Z0-9$]` of the type-5 password pattern. -/
def isAlnumDollar (c : Char) : Bool := isAlnum c || c = '$'

/-- One entry of `SECRETS_PATTERNS`: each pattern in `ingestion.py` has the
shape `(alt₁|…|altₙ)<mid>[class]+` with replacement `\1<mid>[REDACTED]`, so it
is captured by its alternatives, the literal middle part, and the character
class of the secret run. -/
structure SecretPattern where
  alts : List Str
  mid : Str
  cls : Char → Bool

/-- The literal `[REDACTED]` inserted by every replacement. -/
def RED : Str := S "[REDACTED]"

/-- Try the alternatives in order at the head of `s`; return the matched
alternative and the remaining input. -/
def altMatch : List Str → Str → Option (Str × Str)
  | [], _ => none
  | a :: as, s => if a.isPrefixOf s then some (a, s.drop a.length) else altMatch as s

/-- Try to match pattern `P` at the head of `s`.  On success returns the
replacement text `alt ++ mid ++ "[REDACTED]"` and the input remaining after
the greedy secret run, mirroring one match step of `re.sub`. -/
def pMatch (P : SecretPattern) (s : Str) : Option (Str × Str) :=
  match altMatch P.alts s with
  | none => none
  | some (a, r1) =>
    if P.mid.isPrefixOf r1 then
      let r2 := r1.drop P.mid.length
      if (r2.takeWhile P.cls).isEmpty then none
      else some (a ++ P.mid ++ RED, r2.dropWhile P.cls)
    else none

theorem altMatch_rest_le (alts : List Str) (s : Str) {a r1 : Str}
    (ha : altMatch alts s = some (a, r1)) : r1.length ≤ s.length := by
  induction alts with
  | nil => simp [altMatch] at ha
  | cons b bs ih =>
    unfold altMatch at ha
    by_cases hb : b.isPrefixOf s
    · simp only [hb, if_true, Option.some.injEq, Prod.mk.injEq] at ha
      obtain ⟨-, h2⟩ := ha
      subst h2
      simpa using List.length_drop_le _ _
    · simp only [hb, if_false] at ha
      exact ih ha

theorem pMatch_rest_lt (P : SecretPattern) (s : Str) {rep rest : Str}
    (h : pMatch P s = some (rep, rest)) : rest.length < s.length := by
  unfold pMatch at h
  cases ha : altMatch P.alts s with
  | none => simp [ha] at h
  | some pr =>
    obtain ⟨a, r1⟩ := pr
    rw [ha] at h
    have hr1 : r1.length ≤ s.length := altMatch_rest_le P.alts s ha
    by_cases hm : P.mid.isPrefixOf r1
    · simp only [hm, if_true] at h
      by_cases he : ((r1.drop P.mid.length).takeWhile P.cls).isEmpty
      · simp [he] at h
      · simp only [he, if_neg, Bool.false_eq_true, not_false_iff, if_false] at h
        simp only [Option.some.injEq, Prod.mk.injEq] at h
        obtain ⟨-, rfl⟩ := h
        have hlen : (r1.drop P.mid.length).length ≤ r1.length := by
          simpa using List.length_drop_le _ _
        set r2 := r1.drop P.mid.length with hr2
        have hsplit : (r2.takeWhile P.cls).length + (r2.dropWhile P.cls).length = r2.length := by
          rw [← List.length_append, List.takeWhile_append_dropWhile]
        have hpos : 0 < (r2.takeWhile P.cls).length := by
          cases htw : r2.takeWhile P.cls with
          | nil => rw [htw] at he; simp [List.isEmpty] at he
          | cons x xs => simp [htw]
        have hlt : (r2.dropWhile P.cls).length < r2.length := by omega
        omega
    · simp [hm] at h

/-- Fuelled scanning loop of `re.sub`: enough fuel makes it total (each step
consumes at least one input character). -/
def reSubGo (P : SecretPattern) : Nat → Str → Str
  | 0, s => s
  | _ + 1, [] => []
  | fuel + 1, c :: cs =>
    match pMatch P (c :: cs) with
    | some (rep, rest) => rep ++ reSubGo P fuel rest
    | none => c :: reSubGo P fuel cs

/-- One full pass of `re.sub` for pattern `P`: scan left to right, replace each
leftmost match, continue after the match. -/
def reSub (P : SecretPattern) (s : Str) : Str := reSubGo P s.length s

theorem reSubGo_eq_of_le (P : SecretPattern) :
    ∀ n s, List.length s ≤ n → reSubGo P n s = reSubGo P s.length s := by
  intro n
  induction n using Nat.strong_induction_on with
  | _ n ih =>
    intro s hle
    match n, s with
    | 0, s =>
      interval_cases hs : s.length
      · cases s with
        | nil => rfl
        | cons c cs => simp at hs
    | n + 1, [] => rfl
    | n + 1, c :: cs =>
      have hcs : cs.length ≤ n := by simpa using hle
      show reSubGo P (n + 1) (c :: cs) = reSubGo P (cs.length + 1) (c :: cs)
      unfold reSubGo
      cases hp : pMatch P (c :: cs) with
      | none =>
        simp only []
        rw [ih n (Nat.lt_succ_self n) cs hcs]
      | some pr =>
        obtain ⟨rep, rest⟩ := pr
        have hrest : rest.length ≤ cs.length :=
          Nat.lt_succ_iff.mp (by simpa using pMatch_rest_lt P (c :: cs) hp)
        simp only []
        rw [ih n (Nat.lt_succ_self n) rest (hrest.trans hcs),
          ih cs.length (Nat.lt_succ_of_le hcs) rest hrest]

theorem reSub_nil (P : SecretPattern) : reSub P [] = [] := rfl

theorem reSub_cons_none (P : SecretPattern) {c : Char} {cs : Str}
    (h : pMatch P (c :: cs) = none) : reSub P (c :: cs) = c :: reSub P cs := by
  show reSubGo P (cs.length + 1) (c :: cs) = c :: reSubGo P cs.length cs
  conv_lhs => unfold reSubGo
  rw [h]

theorem reSub_cons_some (P : SecretPattern) {c : Char} {cs rep rest : Str}
    (h : pMatch P (c :: cs) = some (rep, rest)) :
    reSub P (c :: cs) = rep ++ reSub P rest := by
  show reSubGo P (cs.length + 1) (c :: cs) = rep ++ reSubGo P rest.length rest
  conv_lhs => unfold reSubGo
  rw [h]
  have hrest : rest.length ≤ cs.length :=
    Nat.lt_succ_iff.mp (by simpa using pMatch_rest_lt P (c :: cs) h)
  show rep ++ reSubGo P cs.length rest = rep ++ reSubGo P rest.length rest
  rw [reSubGo_eq_of_le P cs.length rest hrest]

/-- Cisco type-7 passwords: `(password|secret) 7 [a-zA-Z0-9]+`. -/
def pat1 : SecretPattern := ⟨[S "password", S "secret"], S " 7 ", isAlnum⟩

/-- Cisco type-5 passwords: `(password|secret) 5 [a-zA-Z0-9$]+`. -/
def pat2 : SecretPattern := ⟨[S "password", S "secret"], S " 5 ", isAlnumDollar⟩

/-- SNMP communities: `(snmp-server community) [a-zA-Z0-9]+`. -/
def pat3 : SecretPattern := ⟨[S "snmp-server community"], S " ", isAlnum⟩

/-- TACACS/RADIUS keys: `(key) [a-zA-Z0-9]+`. -/
def pat4 : SecretPattern := ⟨[S "key"], S " ", isAlnum⟩

/-- `(key 7) [a-zA-Z0-9]+`, the last entry of `SECRETS_PATTERNS`. -/
def pat5 : SecretPattern := ⟨[S "key 7"], S " ", isAlnum⟩

/-- `SECRETS_PATTERNS`, in source order. -/
def SECRETS : List SecretPattern := [pat1, pat2, pat3, pat4, pat5]

/-- `NetworkConfigParser._redact_line`: apply the rules in order to the same
line; the flag records whether any rule changed the line. -/
def redact_line (l : Str) : Str × Bool :=
  SECRETS.foldl
    (fun acc P =>
      let n := reSub P acc.1
      (n, acc.2 || decide (n ≠ acc.1)))
    (l, false)

/-! ## Block parser (`ingestion.py`, `NetworkConfigParser`) -/

/-- `ConfigBlock` of `ingestion.py`. -/
structure ConfigBlock where
  full_text : Str
  parent_line : Str
  header_type : Str
  children : List Str
  line_start : Nat
  line_end : Nat
  has_secret : Bool
deriving DecidableEq, Repr

/-- A line the parser skips: empty after trimming, or its trimmed form starts
with the comment marker `!`. -/
def skippable (l : Str) : Bool :=
  (pyStrip l).isEmpty || (S "!").isPrefixOf (pyStrip l)

/-- `NetworkConfigParser._is_child`: indented lines are children. -/
def is_child (l : Str) : Bool :=
  (S " ").isPrefixOf l || (S "\t").isPrefixOf l

/-- `parent.split()[0] if parent else "global"` of `_commit_block`. -/
def headerTypeOf (parent : Str) : Str :=
  if parent.isEmpty then S "global" else firstToken parent

/-- `NetworkConfigParser._commit_block`. -/
def commit_block (parent : Str) (ls : List Str) (start stop : Nat) (hs : Bool) :
    ConfigBlock :=
  { full_text := (S "\n").intercalate ls
    parent_line := parent
    header_type := headerTypeOf parent
    children := ls.drop 1
    line_start := start
    line_end := stop
    has_secret := hs }

/-- Open-block state of the parse loop: the current parent line, the collected
(redacted) lines, the start index, and the accumulated secret flag. -/
structure OpenBlock where
  parent : Str
  lines : List Str
  start : Nat
  hs : Bool
deriving DecidableEq, Repr

/-- The main loop of `NetworkConfigParser.parse`, with the enumeration index
made explicit.  A skippable line is passed over without touching the state;
otherwise the line is redacted, a header line commits the open block (with
`line_end = i - 1`, and with the `has_secret` flag already polluted by the new
header's own redaction outcome, exactly as in the source) and opens a new one,
and a child line extends the open block.  At the end of input the open block
is committed with `line_end` = the running index (= the total line count). -/
def parseLoop : List Str → Nat → Option OpenBlock → List ConfigBlock → List ConfigBlock
  | [], i, cur, acc =>
    match cur with
    | none => acc
    | some b => acc ++ [commit_block b.parent b.lines b.start i b.hs]
  | l :: rest, i, cur, acc =>
    if skippable l then parseLoop rest (i + 1) cur acc
    else
      let rd := redact_line l
      if is_child l then
        match cur with
        | none => parseLoop rest (i + 1) none acc
        | some b =>
          parseLoop rest (i + 1)
            (some { b with lines := b.lines ++ [rd.1], hs := b.hs || rd.2 }) acc
      else
        match cur with
        | none => parseLoop rest (i + 1) (some ⟨rd.1, [rd.1], i, rd.2⟩) acc
        | some b =>
          parseLoop rest (i + 1) (some ⟨rd.1, [rd.1], i, rd.2⟩)
            (acc ++ [commit_block b.parent b.lines b.start (i - 1) (b.hs || rd.2)])

/-- `NetworkConfigParser.parse` on an already-split list of lines. -/
def parse (lines : List Str) : List ConfigBlock := parseLoop lines 0 none []

/-- The index-independent content of a block (used to state that skipped lines
are transparent: they shift line numbers but change no content). -/
def blockContent (b : ConfigBlock) : Str × Str × List Str × Str × Bool :=
  (b.parent_line, b.header_type, b.children, b.full_text, b.has_secret)

/-! ## Metadata detector (`NetworkConfigParser._detect_metadata`) -/

/-- `FileMetadata` as built by `_detect_metadata`. -/
structure FileMetadata where
  vendor : Str
  os_family : Str
  hostname : Str
  filename : Str
deriving DecidableEq, Repr

/-- One scan step of `_detect_metadata` over a line. -/
def detectStep (m : FileMetadata) (l : Str) : FileMetadata :=
  let m1 := if occursIn (S "Current configuration :") l then
    { m with vendor := S "cisco", os_family := S "sugg_ios_xe" } else m
  -- the `"version " in line.lower()` branch does nothing (`pass`)
  if (S "hostname ").isPrefixOf l then
    { m1 with hostname := pyStrip (upToOcc (S "hostname ") (l.drop (S "hostname ").length)) }
  else m1

/-- `_detect_metadata`: examine at most the first 50 lines. -/
def detect_metadata (lines : List Str) (filename : Str) : FileMetadata :=
  (lines.take 50).foldl detectStep
    ⟨S "unknown", S "unknown", S "unknown", filename⟩

/-! ## Comparison engine (`chat_logic.py`, `RAGChatbot.compare_configs`) -/

/-- The slice of a retrieved chunk (`langchain` `Document`) that
`compare_configs` reads: the page content (= the block's `full_text`) and the
`parent_line` / `section_type` metadata attached at ingestion. -/
structure Doc where
  page_content : Str
  parent_line : Str
  section_type : Str
deriving DecidableEq, Repr

/-- The per-key record stored in `golden_by_parent` / `candidate_by_parent`:
`{'content': doc.page_content.strip(), 'section_type': section_type}`. -/
structure Entry where
  content : Str
  section_type : Str
deriving DecidableEq, Repr

/-- The entry built from a document. -/
def entryOf (d : Doc) : Entry := ⟨pyStrip d.page_content, d.section_type⟩

/-- The Python dict `xxx_by_parent`, as a lookup function; later documents
overwrite earlier ones with the same `parent_line` key. -/
def groupByParent (docs : List Doc) : Str → Option Entry :=
  docs.foldl (fun m d k => if k = d.parent_line then some (entryOf d) else m k)
    (fun _ => none)

/-- Lexicographic (code-point) order on strings, Python's `sorted` order. -/
def strLe : Str → Str → Bool
  | [], _ => true
  | _ :: _, [] => false
  | a :: as, b :: bs => a < b || (a = b && strLe as bs)

/-- Insert into a sorted list. -/
def insSorted (k : Str) : List Str → List Str
  | [] => [k]
  | x :: xs => if strLe k x then k :: x :: xs else x :: insSorted k xs

/-- Insertion sort by `strLe`; models `sorted(...)` over the distinct keys. -/
def sortStr (l : List Str) : List Str := l.foldr insSorted []

/-- `sorted(set(golden_by_parent.keys()) | set(candidate_by_parent.keys()))`:
the distinct parent keys of both sides, in sorted order. -/
def allParents (gdocs cdocs : List Doc) : List Str :=
  sortStr ((gdocs.map Doc.parent_line ++ cdocs.map Doc.parent_line).dedup)

/-- The four comparison statuses. -/
inductive Status where
  | match_ | diff | missing | extra
deriving DecidableEq, Repr

/-- The status text rendered in quick mode. -/
def statusText : Status → Str
  | .match_ => S "✅ MATCH"
  | .diff => S "⚠️ DIFF"
  | .missing => S "❌ MISSING"
  | .extra => S "➕ EXTRA"

/-- The classification of one key from the two per-role entries, mirroring the
`if/elif` chain of `compare_configs` (`none` is the final `else: continue`,
reachable only for keys outside the alignment universe). -/
def classifyKey : Option Entry → Option Entry → Option Status
  | some g, some c => some (if g.content = c.content then .match_ else .diff)
  | some _, none => some .missing
  | none, some _ => some .extra
  | none, none => none

/-- The query-derived focus flags (`focus_vlans`, …), one record. -/
structure FocusFlags where
  vlans : Bool
  interfaces : Bool
  routes : Bool
  acls : Bool
  qos : Bool
deriving DecidableEq, Repr

/-- `'vlan' in query.lower()` and friends. -/
def focusOf (query : Str) : FocusFlags :=
  let q := pyLower query
  { vlans := occursIn (S "vlan") q
    interfaces := occursIn (S "interface") q
    routes := occursIn (S "route") q || occursIn (S "ospf") q
    acls := occursIn (S "acl") q || occursIn (S "security") q
    qos := occursIn (S "qos") q }

/-- No focus keyword occurs in the query. -/
def noFocus (query : Str) : Prop := focusOf query = ⟨false, false, false, false, false⟩

instance (query : Str) : Decidable (noFocus query) := by
  unfold noFocus; infer_instance

/-- `parent.replace('\n', ' / ')`. -/
def displayParent (parent : Str) : Str :=
  parent.flatMap (fun c => if c = '\n' then S " / " else [c])

/-- One rendered table row `| {display_parent} | {status} |`. -/
def quickRow (parent : Str) (status : Str) : Str :=
  S "| " ++ displayParent parent ++ S " | " ++ status ++ S " |"

/-- The `section_type` chosen for the focus filter: golden's if present, else
candidate's, else `"unknown"`. -/
def sectionOf (gi ci : Option Entry) : Str :=
  match gi with
  | some g => g.section_type
  | none =>
    match ci with
    | some c => c.section_type
    | none => S "unknown"

/-- The `skip` flag computed from the focus flags for one key. -/
def focusSkip (f : FocusFlags) (parent : Str) (st : Str) : Bool :=
  let s1 := !(f.vlans && st = S "vlan")
  let s2 := s1 && !(f.interfaces && st = S "interface")
  let s3 := s2 && !(f.routes && st = S "router")
  let s4 := s3 && !(f.acls && occursIn (S "access-list") (pyLower parent))
  s4 && !(f.qos && occursIn (S "qos") (pyLower parent))

/-- The quick-mode row loop over the sorted parent keys, with the hostname
skip, the focus filter, and status classification, in source order. -/
def quickRowsLoop (query : Str) (gm cm : Str → Option Entry) : List Str → List Str
  | [] => []
  | k :: ks =>
    let gi := gm k
    let ci := cm k
    if occursIn (S "hostname") (pyLower k) && !occursIn (S "hostname") (pyLower query) then
      quickRowsLoop query gm cm ks
    else
      let f := focusOf query
      let skip := focusSkip f k (sectionOf gi ci)
      if skip && (f.vlans || f.interfaces || f.routes || f.acls || f.qos) then
        quickRowsLoop query gm cm ks
      else
        match classifyKey gi ci with
        | some st => quickRow k (statusText st) :: quickRowsLoop query gm cm ks
        | none => quickRowsLoop query gm cm ks

/-- The quick-mode `result_rows` for two retrieved document lists. -/
def quickRows (query : Str) (gdocs cdocs : List Doc) : List Str :=
  quickRowsLoop query (groupByParent gdocs) (groupByParent cdocs)
    (allParents gdocs cdocs)

/-- The final quick-mode `result_text`. -/
def quickResultText (query : Str) (gdocs cdocs : List Doc) : Str :=
  let rows := quickRows query gdocs cdocs
  if rows.isEmpty then S "No relevant features found to compare based on the query."
  else
    (S "\n").intercalate
      (S "| Feature/Line | Golden Config | Candidate Status |"
        :: S "| --- | --- | --- |" :: rows)

/-- One entry of the deep-mode `differences` bucket. -/
structure DiffRec where
  feature : Str
  golden : Str
  candidate : Str
deriving DecidableEq, Repr

/-- Deep-mode bucket accumulation over the sorted parents:
`(differences, matches, missing, extra)` in source order. -/
def deepBuckets (gm cm : Str → Option Entry) (parents : List Str) :
    List DiffRec × List Str × List Str × List Str :=
  parents.foldl
    (fun acc k =>
      let (ds, ms, mis, ex) := acc
      match gm k, cm k with
      | some g, some c =>
        if g.content = c.content then
          (ds, ms ++ [S "**" ++ k ++ S "**: Identical"], mis, ex)
        else (ds ++ [⟨k, g.content, c.content⟩], ms, mis, ex)
      | some g, none =>
        (ds, ms, mis ++ [S "**" ++ k ++ S "**:\n```\n" ++ g.content ++ S "\n```"], ex)
      | none, some c =>
        (ds, ms, mis, ex ++ [S "**" ++ k ++ S "**:\n```\n" ++ c.content ++ S "\n```"])
      | none, none => (ds, ms, mis, ex))
    ([], [], [], [])

/-- Decimal rendering of a count, Python `str(len(...))`. -/
def natStr (n : Nat) : Str := (toString n).data

/-- The `context_parts` assembly of deep mode. -/
def deepContextParts (ds : List DiffRec) (ms mis ex : List Str) : List Str :=
  (if ds.isEmpty then [] else
    S "### DIFFERENCES DETECTED:\n" ::
      ds.flatMap (fun d =>
        [S "\n**Feature: " ++ d.feature ++ S "**",
         S "\nGolden Config:\n```\n" ++ d.golden ++ S "\n```",
         S "\nCandidate Config:\n```\n" ++ d.candidate ++ S "\n```"]))
  ++ (if mis.isEmpty then [] else S "\n### MISSING IN CANDIDATE:\n" :: mis)
  ++ (if ex.isEmpty then [] else S "\n### EXTRA IN CANDIDATE:\n" :: ex)
  ++ (if ms.isEmpty then [] else
        [S "\n### MATCHING FEATURES: " ++ natStr ms.length ++ S " features are identical"])

/-- The deep-mode prompt handed to the generative collaborator. -/
def deepPrompt (context_text query : Str) : Str :=
  S "\nYou are a Senior Network Engineer performing a detailed configuration audit.\n\nCONFIGURATION COMPARISON RESULTS:\n"
    ++ context_text
    ++ S "\n\nUSER REQUEST:\n"
    ++ query
    ++ S "\n\nINSTRUCTIONS:\nProvide a comprehensive analysis including:\n\n1. **Executive Summary**: Brief overview of the comparison results\n2. **Critical Differences**: Highlight any differences that could impact:\n   - Network functionality\n   - Security posture\n   - Performance\n   - Compliance\n3. **Missing Configurations**: Analyze what's missing in the candidate and why it matters\n4. **Extra Configurations**: Evaluate additional configs in candidate (good or bad?)\n5. **Security Implications**: Any security concerns from the differences?\n6. **Best Practice Recommendations**: Suggestions for improvement\n7. **Risk Assessment**: Rate the risk of deploying the candidate config (Low/Medium/High)\n\nFormat your response in clear, well-structured Markdown with headers and bullet points.\n"

/-- The retrieval filter constructed from the role and the optional explicit
filename (`filter_golden` / `filter_candidate`). -/
inductive RoleFilter where
  | roleOnly (role : Str)
  | roleAndSource (role : Str) (source : Str)
deriving DecidableEq, Repr

/-- Filter construction from an optional filename. -/
def filterFor (role : Str) : Option Str → RoleFilter
  | some fn => .roleAndSource role fn
  | none => .roleOnly role

/-- The external collaborators of `compare_configs`: the vector-store
similarity search and the generative model; both may fail, which in Python
raises and is caught by the surrounding `try`. -/
structure CompareDeps where
  retrieve : Str → Nat → RoleFilter → Except Str (List Doc)
  llm : Str → Except Str Str

/-- The response dictionary of `compare_configs` (and of `ask`): `latency` is
the rounded wall-clock seconds, modelled as an explicit rational. -/
structure CompareResult where
  result : Str
  source_documents : List Doc
  model : Str
  latency : ℚ
deriving DecidableEq, Repr

/-- The body of the `try:` block of `compare_configs`: retrieval, grouping,
alignment, classification, rendering (quick) or bucket/prompt construction
plus the generative call (deep).  `elapsed` stands for the measured wall-clock
latency of the successful path. -/
def compareBody (deps : CompareDeps) (query : Str)
    (golden_filename candidate_filename : Option Str) (mode : Str)
    (model_name : Str) (elapsed : ℚ) : Except Str CompareResult := do
  let docs_golden ← deps.retrieve query 50 (filterFor (S "golden") golden_filename)
  let docs_candidate ← deps.retrieve query 50 (filterFor (S "candidate") candidate_filename)
  if mode = S "quick" then
    pure ⟨quickResultText query docs_golden docs_candidate,
      docs_golden ++ docs_candidate, model_name ++ S " (deterministic)", elapsed⟩
  else
    let gm := groupByParent docs_golden
    let cm := groupByParent docs_candidate
    let (ds, ms, mis, ex) := deepBuckets gm cm (allParents docs_golden docs_candidate)
    let context_text := (S "\n").intercalate (deepContextParts ds ms mis ex)
    let result_text ← deps.llm (deepPrompt context_text query)
    pure ⟨result_text, docs_golden ++ docs_candidate, model_name, elapsed⟩

/-- `RAGChatbot.compare_configs`: the `try/except` wrapper around the body;
every failure is converted into a structured error result. -/
def compare_configs (deps : CompareDeps) (query : Str)
    (golden_filename candidate_filename : Option Str) (mode : Str)
    (model_name : Str) (elapsed : ℚ) : CompareResult :=
  match compareBody deps query golden_filename candidate_filename mode model_name elapsed with
  | .ok r => r
  | .error e => ⟨S "Error generating comparison: " ++ e, [], model_name, 0⟩

/-! ## App-level comparison handling (`app.py`) -/

/-- Python truthiness of an optional session-state string. -/
def truthy : Option Str → Bool
  | none => false
  | some s => !s.isEmpty

/-- The short-circuit response rendered when the two hashes match. -/
def identicalResponse : CompareResult :=
  ⟨S "### ✅ Identical Configurations\n\nThe Golden and Candidate configuration files are **digitally identical** (SHA256 Match). No differences found.",
    [], S "Deterministic Check", 0⟩

/-- The mode heuristic of `app.py`: deep when the prompt asks for a detailed
analysis, quick otherwise. -/
def comparisonMode (userInput : Str) : Str :=
  if occursIn (S "detailed analysis") (pyLower userInput)
      || occursIn (S "provide a") (pyLower userInput) then S "deep"
  else S "quick"

/-- The comparison branch of the app's response generation: the deterministic
hash check short-circuits before any mode selection or engine call; otherwise
the request is delegated to `compare_configs` (abstracted as `compareFn`). -/
def appComparisonResponse (g_hash c_hash : Option Str) (userInput : Str)
    (g_meta c_meta : Option Str)
    (compareFn : Str → Option Str → Option Str → Str → CompareResult) : CompareResult :=
  if truthy g_hash && truthy c_hash && g_hash == c_hash then identicalResponse
  else compareFn userInput g_meta c_meta (comparisonMode userInput)

/-! ## Lookup characterization of the per-role dictionaries -/

theorem groupByParent_foldl (docs : List Doc) (m : Str → Option Entry) (k : Str) :
    (docs.foldl (fun m d k => if k = d.parent_line then some (entryOf d) else m k) m) k =
      match (docs.filter (fun d => d.parent_line == k)).getLast? with
      | some d => some (entryOf d)
      | none => m k := by
  induction docs generalizing m with
  | nil => rfl
  | cons d ds ih =>
    simp only [List.foldl_cons, List.filter_cons]
    by_cases hd : d.parent_line = k
    · simp only [hd, beq_self_eq_true, if_true]
      rw [ih]
      cases hl : (ds.filter (fun d => d.parent_line == k)).getLast? with
      | some d' => simp [List.getLast?_cons, hl]
      | none =>
        have : ds.filter (fun d => d.parent_line == k) = [] := by
          cases hf : ds.filter (fun d => d.parent_line == k) with
          | nil => rfl
          | cons x xs => rw [hf] at hl; simp [List.getLast?_cons] at hl
        simp [this, hd]
    · have hbeq : (d.parent_line == k) = false := by simpa using hd
      simp only [hbeq, Bool.false_eq_true, if_false]
      rw [ih]
      cases hl : (ds.filter (fun d => d.parent_line == k)).getLast? with
      | some d' => simp
      | none =>
        rw [if_neg (fun h => hd h.symm)]

/-- The value stored for a key is the `entryOf` of the key's last occurrence. -/
theorem groupByParent_lookup (docs : List Doc) (k : Str) :
    groupByParent docs k =
      ((docs.filter (fun d => d.parent_line == k)).getLast?).map entryOf := by
  rw [groupByParent, groupByParent_foldl]
  cases (docs.filter (fun d => d.parent_line == k)).getLast? <;> rfl

/-- C9: when one role supplies several blocks with the same `parent_line` key,
the per-role mapping keeps exactly the last one in sequence order, and the
classification of that key is computed from the surviving blocks only. -/
theorem duplicate_keys_last_wins (gdocs cdocs : List Doc) (k : Str) :
    groupByParent gdocs k =
      ((gdocs.filter (fun d => d.parent_line == k)).getLast?).map entryOf
    ∧ classifyKey (groupByParent gdocs k) (groupByParent cdocs k) =
      classifyKey (((gdocs.filter (fun d => d.parent_line == k)).getLast?).map entryOf)
        (((cdocs.filter (fun d => d.parent_line == k)).getLast?).map entryOf) := by
  refine ⟨groupByParent_lookup gdocs k, ?_⟩
  rw [groupByParent_lookup, groupByParent_lookup]

/-- C2 counterexample: two blocks whose `full_text` differs only by trailing
whitespace on the last body line are classified `MATCH`, and the rendered
quick-mode row says so, although exact (unnormalized) string equality fails. -/
def gdocTrailing : Doc := ⟨S "vlan 10\n name Sales ", S "vlan 10", S "vlan"⟩

/-- Candidate-side twin of `gdocTrailing` without the trailing blank. -/
def cdocTrimmed : Doc := ⟨S "vlan 10\n name Sales", S "vlan 10", S "vlan"⟩

/-- C2 is false as stated: equality is tested on `page_content.strip()`, so a
trailing-whitespace difference in `full_text` still yields `MATCH`. -/
theorem match_despite_unequal_full_text :
    classifyKey (groupByParent [gdocTrailing] (S "vlan 10"))
        (groupByParent [cdocTrimmed] (S "vlan 10")) = some .match_
    ∧ quickRows (S "Compare vlan setup") [gdocTrailing] [cdocTrimmed] =
        [S "| vlan 10 | ✅ MATCH |"]
    ∧ gdocTrailing.page_content ≠ cdocTrimmed.page_content := by decide

/-- C2 amended: for a key present on both sides, the classification is `MATCH`
iff the two surviving blocks' `page_content` are equal after Python
`str.strip()` (leading/trailing-whitespace normalization of the whole block
text), and `DIFF` otherwise. -/
theorem match_iff_stripped_equal (gdocs cdocs : List Doc) (k : Str) (dg dc : Doc)
    (hg : (gdocs.filter (fun d => d.parent_line == k)).getLast? = some dg)
    (hc : (cdocs.filter (fun d => d.parent_line == k)).getLast? = some dc) :
    (classifyKey (groupByParent gdocs k) (groupByParent cdocs k) = some .match_
      ↔ pyStrip dg.page_content = pyStrip dc.page_content)
    ∧ (classifyKey (groupByParent gdocs k) (groupByParent cdocs k) = some .diff
      ↔ pyStrip dg.page_content ≠ pyStrip dc.page_content) := by
  rw [groupByParent_lookup, groupByParent_lookup, hg, hc]
  show (classifyKey (some (entryOf dg)) (some (entryOf dc)) = some .match_ ↔ _)
    ∧ (classifyKey (some (entryOf dg)) (some (entryOf dc)) = some .diff ↔ _)
  unfold classifyKey entryOf
  by_cases h : pyStrip dg.page_content = pyStrip dc.page_content <;> simp [h]

/-- Concrete instance of `match_iff_stripped_equal`. -/
theorem match_iff_stripped_equal_witness :
    (classifyKey (groupByParent [gdocTrailing] (S "vlan 10"))
        (groupByParent [cdocTrimmed] (S "vlan 10")) = some .match_
      ↔ pyStrip gdocTrailing.page_content = pyStrip cdocTrimmed.page_content)
    ∧ (classifyKey (groupByParent [gdocTrailing] (S "vlan 10"))
        (groupByParent [cdocTrimmed] (S "vlan 10")) = some .diff
      ↔ pyStrip gdocTrailing.page_content ≠ pyStrip cdocTrimmed.page_content) :=
  match_iff_stripped_equal [gdocTrailing] [cdocTrimmed] (S "vlan 10")
    gdocTrailing cdocTrimmed (by decide) (by decide)

/-! ## C8: comparison errors become structured results -/

/-- C8: any failure inside the comparison body (retrieval, or the deep-mode
generative call) is returned as a normal result whose `result` carries the
explanatory message, with empty `source_documents` and latency `0.0`; the
operation is total, never propagating the failure. -/
theorem compare_error_result (deps : CompareDeps) (query : Str)
    (gf cf : Option Str) (mode model_name : Str) (elapsed : ℚ) (e : Str)
    (h : compareBody deps query gf cf mode model_name elapsed = .error e) :
    compare_configs deps query gf cf mode model_name elapsed =
      ⟨S "Error generating comparison: " ++ e, [], model_name, 0⟩ := by
  unfold compare_configs
  rw [h]

/-- A dependency bundle whose retrieval always fails. -/
def failingDeps : CompareDeps :=
  ⟨fun _ _ _ => .error (S "connection refused"), fun _ => .error (S "llm down")⟩

/-- Concrete instance of `compare_error_result`. -/
theorem compare_error_result_witness :
    compare_configs failingDeps (S "Compare the candidate") none none (S "quick")
        (S "llama3.2:3b") 1 =
      ⟨S "Error generating comparison: " ++ S "connection refused", [],
        S "llama3.2:3b", 0⟩ :=
  compare_error_result failingDeps (S "Compare the candidate") none none (S "quick")
    (S "llama3.2:3b") 1 (S "connection refused") rfl

/-! ## C3: the byte-identity short-circuit -/

/-- C3: when golden and candidate bytes coincide, the (caller-computed)
content hashes coincide, and the app's comparison handler returns the trivial
all-identical response without consulting the comparison engine at all — the
answer is independent of the engine (`compareFn`) and of the mode heuristic,
which is only evaluated on the other branch. -/
theorem hash_short_circuit (hash : List Nat → Str) (gbytes cbytes : List Nat)
    (hne : hash gbytes ≠ []) (heq : gbytes = cbytes) (userInput : Str)
    (g_meta c_meta : Option Str)
    (compareFn : Str → Option Str → Option Str → Str → CompareResult) :
    appComparisonResponse (some (hash gbytes)) (some (hash cbytes)) userInput
      g_meta c_meta compareFn = identicalResponse := by
  subst heq
  unfold appComparisonResponse truthy
  simp [List.isEmpty_iff, hne]

/-- Concrete instance of `hash_short_circuit`: the engine answer (here a dummy
that would report a difference) is ignored on equal hashes, for a deep-style
prompt as much as for a quick one. -/
theorem hash_short_circuit_witness :
    appComparisonResponse (some (S "9f86d0")) (some (S "9f86d0"))
      (S "Compare the candidate configuration, provide a detailed analysis")
      none none (fun q _ _ _ => ⟨q, [], S "llama3.2:3b", 2⟩) = identicalResponse :=
  hash_short_circuit (fun _ => S "9f86d0") [1, 2] [1, 2] (by decide) rfl
    (S "Compare the candidate configuration, provide a detailed analysis")
    none none (fun q _ _ _ => ⟨q, [], S "llama3.2:3b", 2⟩)

/-! ## C7: hostname detection -/

/-- C7 counterexample: for the header `hostname a b` the code stores the whole
remainder `a b`, not the single following token `a`. -/
theorem detect_hostname_not_single_token :
    (detect_metadata [S "hostname a b"] (S "run.cfg")).hostname = S "a b"
    ∧ S "a b" ≠ S "a" := by decide

theorem detectStep_hostname (m : FileMetadata) (l : Str) :
    (detectStep m l).hostname =
      if (S "hostname ").isPrefixOf l then
        pyStrip (upToOcc (S "hostname ") (l.drop (S "hostname ").length))
      else m.hostname := by
  unfold detectStep
  by_cases h1 : occursIn (S "Current configuration :") l
  <;> by_cases h2 : (S "hostname ").isPrefixOf l
  <;> simp [h1, h2]

theorem detect_foldl_hostname (L : List Str) (m : FileMetadata) :
    (L.foldl detectStep m).hostname =
      match (L.filter (fun l => (S "hostname ").isPrefixOf l)).getLast? with
      | none => m.hostname
      | some l => pyStrip (upToOcc (S "hostname ") (l.drop (S "hostname ").length)) := by
  induction L generalizing m with
  | nil => rfl
  | cons l ls ih =>
    simp only [List.foldl_cons, List.filter_cons]
    by_cases hl : (S "hostname ").isPrefixOf l
    · simp only [hl, if_true]
      rw [ih]
      cases hg : (ls.filter (fun l => (S "hostname ").isPrefixOf l)).getLast? with
      | some l' => simp [List.getLast?_cons, hg]
      | none =>
        have : ls.filter (fun l => (S "hostname ").isPrefixOf l) = [] := by
          cases hf : ls.filter (fun l => (S "hostname ").isPrefixOf l) with
          | nil => rfl
          | cons x xs => rw [hf] at hg; simp [List.getLast?_cons] at hg
        simp [this, detectStep_hostname, hl]
    · simp only [hl, Bool.false_eq_true, if_false]
      rw [ih]
      have : (detectStep m l).hostname = m.hostname := by
        rw [detectStep_hostname]; simp [hl]
      cases hg : (ls.filter (fun l => (S "hostname ").isPrefixOf l)).getLast? <;> simp [this]

/-- C7 amended: within the first 50 lines, the last line carrying the literal
prefix `hostname ` (a space-separated prefix test, not a first-word test) sets
the hostname to the stripped text following that prefix, up to the next
occurrence of the separator; with no such line the default `unknown` stays.
Detection is total. -/
theorem detect_hostname_characterization (lines : List Str) (filename : Str) :
    (detect_metadata lines filename).hostname =
      match ((lines.take 50).filter (fun l => (S "hostname ").isPrefixOf l)).getLast? with
      | none => S "unknown"
      | some l => pyStrip (upToOcc (S "hostname ") (l.drop (S "hostname ").length)) := by
  unfold detect_metadata
  rw [detect_foldl_hostname]

/-! ## C1: the alignment universe and the status partition -/

theorem mem_insSorted (k x : Str) (l : List Str) :
    k ∈ insSorted x l ↔ k = x ∨ k ∈ l := by
  induction l with
  | nil => simp [insSorted]
  | cons y ys ih =>
    unfold insSorted
    by_cases h : strLe x y
    · simp [h]
    · simp only [h, Bool.false_eq_true, if_false, List.mem_cons, ih]
      tauto

theorem mem_sortStr (l : List Str) (k : Str) : k ∈ sortStr l ↔ k ∈ l := by
  induction l with
  | nil => simp [sortStr]
  | cons x xs ih =>
    show k ∈ insSorted x (sortStr xs) ↔ _
    rw [mem_insSorted]
    simp [ih]

theorem mem_allParents (gdocs cdocs : List Doc) (k : Str) :
    k ∈ allParents gdocs cdocs ↔
      (∃ d ∈ gdocs, d.parent_line = k) ∨ (∃ d ∈ cdocs, d.parent_line = k) := by
  unfold allParents
  rw [mem_sortStr, List.mem_dedup, List.mem_append]
  simp only [List.mem_map]

theorem groupByParent_isSome (docs : List Doc) (k : Str) :
    (groupByParent docs k).isSome ↔ ∃ d ∈ docs, d.parent_line = k := by
  rw [groupByParent_lookup]
  constructor
  · intro h
    cases hl : (docs.filter (fun d => d.parent_line == k)).getLast? with
    | none => rw [hl] at h; simp at h
    | some d =>
      have hmem : d ∈ docs.filter (fun d => d.parent_line == k) := by
        have : d ∈ (docs.filter (fun d => d.parent_line == k)).getLast?.toList := by
          rw [hl]; simp
        exact List.mem_of_mem_getLast? (by simpa using this)
      have := List.mem_filter.mp hmem
      exact ⟨d, this.1, by simpa using this.2⟩
  · rintro ⟨d, hd, rfl⟩
    have hmem : d ∈ docs.filter (fun d' => d'.parent_line == d.parent_line) :=
      List.mem_filter.mpr ⟨hd, by simp⟩
    have hne : docs.filter (fun d' => d'.parent_line == d.parent_line) ≠ [] :=
      fun h => by rw [h] at hmem; exact absurd hmem (List.not_mem_nil d)
    cases hl : (docs.filter (fun d' => d'.parent_line == d.parent_line)).getLast? with
    | some d' => simp
    | none => exact absurd (List.getLast?_eq_none_iff.mp hl) hne

/-- Specification predicate for one key of the alignment universe: the key is
classified, the status is unique, and it is the one selected by the claimed
precedence (`MATCH`/`DIFF` on two-sided keys by content equality, `MISSING`
golden-only, `EXTRA` candidate-only). -/
def ClassifiedOnce (gi ci : Option Entry) : Prop :=
  ∃ st, classifyKey gi ci = some st
    ∧ (∀ st', classifyKey gi ci = some st' → st' = st)
    ∧ (st = .match_ ↔ ∃ g c, gi = some g ∧ ci = some c ∧ g.content = c.content)
    ∧ (st = .diff ↔ ∃ g c, gi = some g ∧ ci = some c ∧ g.content ≠ c.content)
    ∧ (st = .missing ↔ gi.isSome ∧ ci = none)
    ∧ (st = .extra ↔ gi = none ∧ ci.isSome)

theorem classifiedOnce_of_isSome (gi ci : Option Entry)
    (h : gi.isSome ∨ ci.isSome) : ClassifiedOnce gi ci := by
  cases gi with
  | some g =>
    cases ci with
    | some c =>
      by_cases hc : g.content = c.content
      · refine ⟨.match_, by simp [classifyKey, hc], ?_, ?_, ?_, ?_, ?_⟩
        · intro st' hst'; simpa [classifyKey, hc] using hst'.symm
        · simp only [true_iff]
          exact ⟨g, c, rfl, rfl, hc⟩
        · constructor
          · intro h'; cases h'
          · rintro ⟨g', c', hg', hc', hne⟩
            cases hg'; cases hc'; exact absurd hc hne
        · simp
        · simp
      · refine ⟨.diff, by simp [classifyKey, hc], ?_, ?_, ?_, ?_, ?_⟩
        · intro st' hst'; simpa [classifyKey, hc] using hst'.symm
        · constructor
          · intro h'; cases h'
          · rintro ⟨g', c', hg', hc', heq⟩
            cases hg'; cases hc'; exact absurd heq hc
        · simp only [true_iff]
          exact ⟨g, c, rfl, rfl, hc⟩
        · simp
        · simp
    | none =>
      refine ⟨.missing, by simp [classifyKey], ?_, ?_, ?_, ?_, ?_⟩
      · intro st' hst'; simpa [classifyKey] using hst'.symm
      · simp
      · simp
      · simp
      · simp
  | none =>
    cases ci with
    | some c =>
      refine ⟨.extra, by simp [classifyKey], ?_, ?_, ?_, ?_, ?_⟩
      · intro st' hst'; simpa [classifyKey] using hst'.symm
      · simp
      · simp
      · simp
      · simp
    | none => simp at h

/-- C1: the quick/deep alignment universe is exactly the union of the
`parent_line` keys present on either side, and every key of the universe gets
exactly one of the four statuses by the claimed precedence. -/
theorem alignment_partition (gdocs cdocs : List Doc) (k : Str) :
    (k ∈ allParents gdocs cdocs ↔
      (groupByParent gdocs k).isSome ∨ (groupByParent cdocs k).isSome)
    ∧ (k ∈ allParents gdocs cdocs →
      ClassifiedOnce (groupByParent gdocs k) (groupByParent cdocs k)) := by
  have huniv : k ∈ allParents gdocs cdocs ↔
      (groupByParent gdocs k).isSome ∨ (groupByParent cdocs k).isSome := by
    rw [mem_allParents, groupByParent_isSome, groupByParent_isSome]
  exact ⟨huniv, fun hk => classifiedOnce_of_isSome _ _ (huniv.mp hk)⟩

/-- Concrete instance of `alignment_partition`. -/
theorem alignment_partition_witness :
    S "vlan 10" ∈ allParents [gdocTrailing] []
    ∧ ClassifiedOnce (groupByParent [gdocTrailing] (S "vlan 10"))
        (groupByParent [] (S "vlan 10")) :=
  ⟨by decide, (alignment_partition [gdocTrailing] [] (S "vlan 10")).2 (by decide)⟩

/-! ## C4: the quick-mode filter in unrestricted mode -/

/-- The document that exhibits the unconditional hostname skip. -/
def hostnameDoc : Doc := ⟨S "hostname R1", S "hostname R1", S "hostname"⟩

/-- C4 is false as stated: with a query carrying no focus keyword and not
mentioning hostname, the key `hostname R1` is in the alignment universe yet
the rendered quick-mode table has no rows at all — the hostname skip fires
even in unrestricted mode. -/
theorem hostname_row_dropped_without_focus :
    noFocus (S "Compare configs.")
    ∧ S "hostname R1" ∈ allParents [hostnameDoc] []
    ∧ quickRows (S "Compare configs.") [hostnameDoc] [] = [] := by decide

theorem classifyKey_isSome (gi ci : Option Entry) :
    (classifyKey gi ci).isSome ↔ gi.isSome ∨ ci.isSome := by
  cases gi <;> cases ci <;> simp [classifyKey]

theorem quickRowsLoop_noFocus (query : Str) (hq : noFocus query)
    (gm cm : Str → Option Entry) (ks : List Str) :
    quickRowsLoop query gm cm ks =
      (ks.filter (fun k => !(occursIn (S "hostname") (pyLower k))
          || occursIn (S "hostname") (pyLower query))).filterMap
        (fun k => (classifyKey (gm k) (cm k)).map
          (fun st => quickRow k (statusText st))) := by
  have hflags : focusOf query = ⟨false, false, false, false, false⟩ := hq
  induction ks with
  | nil => rfl
  | cons k ks ih =>
    cases hk1 : occursIn (S "hostname") (pyLower k)
    <;> cases hk2 : occursIn (S "hostname") (pyLower query)
    <;> cases hcl : classifyKey (gm k) (cm k)
    <;> simp [quickRowsLoop, List.filter_cons, hk1, hk2, hflags, hcl, ih]

/-- C4 amended: in unrestricted mode (no focus keyword in the query) the
quick-mode table drops nothing except hostname rows: it has exactly one row
for every key of the alignment universe whose lowercased form does not
contain `hostname` (and for those too when the query mentions hostname),
while keys containing `hostname` are dropped when the query does not. -/
theorem quick_rows_no_focus (query : Str) (hq : noFocus query)
    (gdocs cdocs : List Doc) :
    quickRows query gdocs cdocs =
      ((allParents gdocs cdocs).filter (fun k => !(occursIn (S "hostname") (pyLower k))
          || occursIn (S "hostname") (pyLower query))).filterMap
        (fun k => (classifyKey (groupByParent gdocs k) (groupByParent cdocs k)).map
          (fun st => quickRow k (statusText st)))
    ∧ ∀ k ∈ allParents gdocs cdocs,
        (classifyKey (groupByParent gdocs k) (groupByParent cdocs k)).isSome := by
  constructor
  · exact quickRowsLoop_noFocus query hq (groupByParent gdocs) (groupByParent cdocs) _
  · intro k hk
    rw [classifyKey_isSome, groupByParent_isSome, groupByParent_isSome]
    exact (mem_allParents gdocs cdocs k).mp hk

/-- Concrete instance of `quick_rows_no_focus`. -/
theorem quick_rows_no_focus_witness :
    (quickRows (S "Compare configs.") [hostnameDoc] [gdocTrailing] =
      ((allParents [hostnameDoc] [gdocTrailing]).filter
          (fun k => !(occursIn (S "hostname") (pyLower k))
            || occursIn (S "hostname") (pyLower (S "Compare configs.")))).filterMap
        (fun k => (classifyKey (groupByParent [hostnameDoc] k)
            (groupByParent [gdocTrailing] k)).map
          (fun st => quickRow k (statusText st))))
    ∧ ∀ k ∈ allParents [hostnameDoc] [gdocTrailing],
        (classifyKey (groupByParent [hostnameDoc] k)
          (groupByParent [gdocTrailing] k)).isSome :=
  quick_rows_no_focus (S "Compare configs.") (by decide) [hostnameDoc] [gdocTrailing]

/-! ## Structural facts about `pMatch` and `reSub` -/

theorem altMatch_some_decomp {alts : List Str} {s a r1 : Str}
    (h : altMatch alts s = some (a, r1)) : a ∈ alts ∧ s = a ++ r1 := by
  induction alts with
  | nil => simp [altMatch] at h
  | cons b bs ih =>
    unfold altMatch at h
    by_cases hb : b.isPrefixOf s
    · simp only [hb, if_true, Option.some.injEq, Prod.mk.injEq] at h
      obtain ⟨rfl, rfl⟩ := h
      obtain ⟨t, ht⟩ := List.isPrefixOf_iff_prefix.mp hb
      refine ⟨List.mem_cons_self .., ?_⟩
      rw [← ht, List.drop_left]
    · simp only [hb, Bool.false_eq_true, if_false] at h
      obtain ⟨hm, hs⟩ := ih h
      exact ⟨List.mem_cons_of_mem _ hm, hs⟩

theorem pMatch_some_decomp {P : SecretPattern} {s rep rest : Str}
    (h : pMatch P s = some (rep, rest)) :
    ∃ a run, a ∈ P.alts ∧ s = a ++ P.mid ++ (run ++ rest)
      ∧ rep = a ++ P.mid ++ RED ∧ run ≠ []
      ∧ (∀ c ∈ run, P.cls c = true) := by
  unfold pMatch at h
  cases ha : altMatch P.alts s with
  | none => rw [ha] at h; cases h
  | some pr =>
    obtain ⟨a, r1⟩ := pr
    rw [ha] at h
    obtain ⟨hmem, hs⟩ := altMatch_some_decomp ha
    by_cases hm : P.mid.isPrefixOf r1
    · simp only [hm, if_true] at h
      obtain ⟨t, ht⟩ := List.isPrefixOf_iff_prefix.mp hm
      have hdrop : r1.drop P.mid.length = t := by rw [← ht, List.drop_left]
      rw [hdrop] at h
      by_cases he : (t.takeWhile P.cls).isEmpty
      · simp [he] at h
      · simp only [he, Bool.false_eq_true, not_false_iff, if_false,
          Option.some.injEq, Prod.mk.injEq] at h
        obtain ⟨hrep, hrest⟩ := h
        refine ⟨a, t.takeWhile P.cls, hmem, ?_, hrep.symm, ?_, ?_⟩
        · rw [hrest.symm] at *
          rw [hs, ← ht, List.takeWhile_append_dropWhile, List.append_assoc]
        · intro hnil
          rw [hnil] at he
          simp at he
        · intro c hc
          exact List.mem_takeWhile_imp hc
    · simp [hm] at h

/-- The head of the input after leading whitespace; redaction preserves it. -/
def firstNonWs (s : Str) : Option Char := (s.dropWhile isPySpace).head?

/-- All alternatives of the five secret patterns start with a non-whitespace
character (they are keyword literals). -/
def altHeadsSolid (P : SecretPattern) : Prop :=
  ∀ a ∈ P.alts, ∃ c cs, a = c :: cs ∧ isPySpace c = false

theorem firstNonWs_reSub (P : SecretPattern) (hP : altHeadsSolid P) :
    ∀ s, firstNonWs (reSub P s) = firstNonWs s := by
  suffices key : ∀ n, ∀ s : Str, s.length = n → firstNonWs (reSub P s) = firstNonWs s by
    intro s
    exact key s.length s rfl
  intro n
  induction n using Nat.strong_induction_on with
  | _ n ih =>
    intro s hn
    cases s with
    | nil => rfl
    | cons c cs =>
      subst hn
      cases hp : pMatch P (c :: cs) with
      | none =>
        rw [reSub_cons_none P hp]
        by_cases hws : isPySpace c = true
        · unfold firstNonWs
          rw [List.dropWhile_cons_of_pos hws, List.dropWhile_cons_of_pos hws]
          exact ih cs.length (by simp) cs rfl
        · unfold firstNonWs
          rw [List.dropWhile_cons_of_neg (by simp [hws]),
            List.dropWhile_cons_of_neg (by simp [hws])]
          simp
      | some pr =>
        obtain ⟨rep, rest⟩ := pr
        rw [reSub_cons_some P hp]
        obtain ⟨a, run, hmem, hs, hrep, -, -⟩ := pMatch_some_decomp hp
        obtain ⟨c0, cs0, ha, hc0⟩ := hP a hmem
        subst ha hrep
        unfold firstNonWs
        rw [hs]
        simp only [List.cons_append, List.append_assoc]
        rw [List.dropWhile_cons_of_neg (by simp [hc0]),
          List.dropWhile_cons_of_neg (by simp [hc0])]
        simp

theorem altHeadsSolid_all :
    altHeadsSolid pat1 ∧ altHeadsSolid pat2 ∧ altHeadsSolid pat3
      ∧ altHeadsSolid pat4 ∧ altHeadsSolid pat5 := by
  refine ⟨?_, ?_, ?_, ?_, ?_⟩ <;>
    · intro a ha
      simp only [pat1, pat2, pat3, pat4, pat5, S, List.mem_cons,
        List.mem_singleton, List.not_mem_nil, or_false] at ha
      rcases ha with rfl | rfl <;> exact ⟨_, _, rfl, by decide⟩

theorem firstNonWs_redact_line (l : Str) :
    firstNonWs (redact_line l).1 = firstNonWs l := by
  obtain ⟨h1, h2, h3, h4, h5⟩ := altHeadsSolid_all
  show firstNonWs (reSub pat5 (reSub pat4 (reSub pat3 (reSub pat2 (reSub pat1 l))))) = _
  rw [firstNonWs_reSub pat5 h5, firstNonWs_reSub pat4 h4, firstNonWs_reSub pat3 h3,
    firstNonWs_reSub pat2 h2, firstNonWs_reSub pat1 h1]

theorem pyStrip_head? (s : Str) : (pyStrip s).head? = firstNonWs s := by
  unfold pyStrip firstNonWs
  cases ht : s.dropWhile isPySpace with
  | nil => simp
  | cons c t =>
    have hc : isPySpace c = false := by
      have := List.head?_dropWhile_not isPySpace s
      rw [ht] at this
      simpa using this
    rw [List.head?_cons]
    have hsub : (t.reverse ++ [c]).dropWhile isPySpace =
        t.reverse.dropWhile isPySpace ++ [c]
        ∨ ((t.reverse ++ [c]).dropWhile isPySpace = [c].dropWhile isPySpace
            ∧ t.reverse.dropWhile isPySpace = []) := by
      induction t.reverse with
      | nil => simp
      | cons x xs ihx =>
        by_cases hx : isPySpace x = true
        · rw [List.cons_append, List.dropWhile_cons_of_pos hx,
            List.dropWhile_cons_of_pos hx]
          exact ihx
        · rw [List.cons_append, List.dropWhile_cons_of_neg (by simp [hx]),
            List.dropWhile_cons_of_neg (by simp [hx])]
          exact Or.inl rfl
    rw [List.reverse_cons]
    rcases hsub with hsub | ⟨hsub, -⟩
    · rw [hsub, List.reverse_append]
      rfl
    · rw [hsub, List.dropWhile_cons_of_neg (by simp [hc])]
      rfl

theorem pyStrip_eq_nil_iff (s : Str) : pyStrip s = [] ↔ s.dropWhile isPySpace = [] := by
  constructor
  · intro h
    cases ht : s.dropWhile isPySpace with
    | nil => rfl
    | cons c t =>
      have := pyStrip_head? s
      rw [h] at this
      unfold firstNonWs at this
      rw [ht] at this
      simp at this
  · intro h
    unfold pyStrip
    rw [h]
    rfl

theorem skippable_iff (l : Str) :
    skippable l = true ↔ firstNonWs l = none ∨ firstNonWs l = some '!' := by
  unfold skippable
  rw [Bool.or_eq_true]
  constructor
  · rintro (h | h)
    · left
      have : pyStrip l = [] := by simpa [List.isEmpty_iff] using h
      unfold firstNonWs
      rw [pyStrip_eq_nil_iff l |>.mp this]
      rfl
    · right
      have hpre : (S "!") <+: pyStrip l := List.isPrefixOf_iff_prefix.mp h
      obtain ⟨t, ht⟩ := hpre
      rw [← pyStrip_head? l, ← ht]
      rfl
  · rintro (h | h)
    · left
      rw [← pyStrip_head? l] at h
      cases hs : pyStrip l with
      | nil => simp
      | cons c t => rw [hs] at h; simp at h
    · right
      rw [← pyStrip_head? l] at h
      cases hs : pyStrip l with
      | nil => rw [hs] at h; simp at h
      | cons c t =>
        rw [hs] at h
        simp only [List.head?_cons, Option.some.injEq] at h
        subst h
        simp [S, List.isPrefixOf]

/-- Redacting a line never turns it into a skippable one (and conversely):
redaction preserves the first non-whitespace character. -/
theorem skippable_redact_line (l : Str) :
    skippable (redact_line l).1 = skippable l := by
  by_cases h : skippable l = true
  · rw [h]
    rw [skippable_iff] at h ⊢
    rwa [firstNonWs_redact_line]
  · have h' : skippable l = false := by simpa using h
    rw [h']
    by_cases h2 : skippable (redact_line l).1 = true
    · rw [skippable_iff, firstNonWs_redact_line, ← skippable_iff] at h2
      rw [h2] at h'
      cases h'
    · simpa using h2

/-! ## Step equations of `parseLoop` -/

theorem parseLoop_nil_none (i : Nat) (acc : List ConfigBlock) :
    parseLoop [] i none acc = acc := rfl

theorem parseLoop_nil_some (i : Nat) (b : OpenBlock) (acc : List ConfigBlock) :
    parseLoop [] i (some b) acc =
      acc ++ [commit_block b.parent b.lines b.start i b.hs] := rfl

theorem parseLoop_cons_skip {l : Str} (hsk : skippable l = true)
    (rest : List Str) (i : Nat) (cur : Option OpenBlock) (acc : List ConfigBlock) :
    parseLoop (l :: rest) i cur acc = parseLoop rest (i + 1) cur acc := by
  conv_lhs => unfold parseLoop
  rw [if_pos hsk]

theorem parseLoop_cons_child_none {l : Str} (hsk : skippable l = false)
    (hch : is_child l = true) (rest : List Str) (i : Nat) (acc : List ConfigBlock) :
    parseLoop (l :: rest) i none acc = parseLoop rest (i + 1) none acc := by
  conv_lhs => unfold parseLoop
  rw [if_neg (by simp [hsk]), if_pos hch]

theorem parseLoop_cons_child_some {l : Str} (hsk : skippable l = false)
    (hch : is_child l = true) (rest : List Str) (i : Nat) (b : OpenBlock)
    (acc : List ConfigBlock) :
    parseLoop (l :: rest) i (some b) acc =
      parseLoop rest (i + 1)
        (some ⟨b.parent, b.lines ++ [(redact_line l).1], b.start,
          b.hs || (redact_line l).2⟩) acc := by
  conv_lhs => unfold parseLoop
  rw [if_neg (by simp [hsk]), if_pos hch]

theorem parseLoop_cons_header_none {l : Str} (hsk : skippable l = false)
    (hch : is_child l = false) (rest : List Str) (i : Nat) (acc : List ConfigBlock) :
    parseLoop (l :: rest) i none acc =
      parseLoop rest (i + 1)
        (some ⟨(redact_line l).1, [(redact_line l).1], i, (redact_line l).2⟩) acc := by
  conv_lhs => unfold parseLoop
  rw [if_neg (by simp [hsk]), if_neg (by simp [hch])]

theorem parseLoop_cons_header_some {l : Str} (hsk : skippable l = false)
    (hch : is_child l = false) (rest : List Str) (i : Nat) (b : OpenBlock)
    (acc : List ConfigBlock) :
    parseLoop (l :: rest) i (some b) acc =
      parseLoop rest (i + 1)
        (some ⟨(redact_line l).1, [(redact_line l).1], i, (redact_line l).2⟩)
        (acc ++ [commit_block b.parent b.lines b.start (i - 1)
          (b.hs || (redact_line l).2)]) := by
  conv_lhs => unfold parseLoop
  rw [if_neg (by simp [hsk]), if_neg (by simp [hch])]

/-! ## C6: comment/blank lines are transparent to the parser -/

/-- The index-independent content of the open-block state. -/
def curContent : Option OpenBlock → Option (Str × List Str × Bool)
  | none => none
  | some b => some (b.parent, b.lines, b.hs)

theorem parseLoop_skip_invariant :
    ∀ ls : List Str, ∀ i j : Nat, ∀ cur1 cur2 : Option OpenBlock,
      ∀ acc1 acc2 : List ConfigBlock,
      curContent cur1 = curContent cur2 →
      acc1.map blockContent = acc2.map blockContent →
      (parseLoop ls i cur1 acc1).map blockContent =
        (parseLoop (ls.filter (fun l => !skippable l)) j cur2 acc2).map blockContent := by
  intro ls
  induction ls with
  | nil =>
    intro i j cur1 cur2 acc1 acc2 hcur hacc
    simp only [List.filter_nil]
    cases cur1 with
    | none =>
      cases cur2 with
      | none => rw [parseLoop_nil_none, parseLoop_nil_none]; exact hacc
      | some b2 => simp [curContent] at hcur
    | some b1 =>
      cases cur2 with
      | none => simp [curContent] at hcur
      | some b2 =>
        simp only [curContent, Option.some.injEq, Prod.mk.injEq] at hcur
        obtain ⟨hp, hl, hh⟩ := hcur
        rw [parseLoop_nil_some, parseLoop_nil_some,
          List.map_append, List.map_append, hacc]
        simp [blockContent, commit_block, hp, hl, hh]
  | cons l rest ih =>
    intro i j cur1 cur2 acc1 acc2 hcur hacc
    by_cases hsk : skippable l = true
    · rw [List.filter_cons_of_neg (by simp [hsk]), parseLoop_cons_skip hsk]
      exact ih (i + 1) j cur1 cur2 acc1 acc2 hcur hacc
    · have hsk' : skippable l = false := by simpa using hsk
      rw [List.filter_cons_of_pos (by simp [hsk'])]
      by_cases hch : is_child l = true
      · cases cur1 with
        | none =>
          cases cur2 with
          | none =>
            rw [parseLoop_cons_child_none hsk' hch, parseLoop_cons_child_none hsk' hch]
            exact ih (i + 1) (j + 1) none none acc1 acc2 rfl hacc
          | some b2 => simp [curContent] at hcur
        | some b1 =>
          cases cur2 with
          | none => simp [curContent] at hcur
          | some b2 =>
            simp only [curContent, Option.some.injEq, Prod.mk.injEq] at hcur
            obtain ⟨hp, hl, hh⟩ := hcur
            rw [parseLoop_cons_child_some hsk' hch, parseLoop_cons_child_some hsk' hch]
            exact ih (i + 1) (j + 1) _ _ acc1 acc2
              (by simp [curContent, hp, hl, hh]) hacc
      · have hch' : is_child l = false := by simpa using hch
        cases cur1 with
        | none =>
          cases cur2 with
          | none =>
            rw [parseLoop_cons_header_none hsk' hch',
              parseLoop_cons_header_none hsk' hch']
            exact ih (i + 1) (j + 1) _ _ acc1 acc2 (by simp [curContent]) hacc
          | some b2 => simp [curContent] at hcur
        | some b1 =>
          cases cur2 with
          | none => simp [curContent] at hcur
          | some b2 =>
            simp only [curContent, Option.some.injEq, Prod.mk.injEq] at hcur
            obtain ⟨hp, hl, hh⟩ := hcur
            rw [parseLoop_cons_header_some hsk' hch',
              parseLoop_cons_header_some hsk' hch']
            refine ih (i + 1) (j + 1) _ _ _ _ (by simp [curContent]) ?_
            rw [List.map_append, List.map_append, hacc]
            simp [blockContent, commit_block, hp, hl, hh]

/-- Every stored body line is non-skippable. -/
def childrenOk (bs : List ConfigBlock) : Prop :=
  ∀ b ∈ bs, ∀ ch ∈ b.children, skippable ch = false

/-- Every collected line past the header of the open block is non-skippable. -/
def curOk : Option OpenBlock → Prop
  | none => True
  | some b => ∀ ch ∈ b.lines.drop 1, skippable ch = false

theorem parseLoop_children_ok :
    ∀ ls : List Str, ∀ i : Nat, ∀ cur : Option OpenBlock, ∀ acc : List ConfigBlock,
      curOk cur → childrenOk acc → childrenOk (parseLoop ls i cur acc) := by
  intro ls
  induction ls with
  | nil =>
    intro i cur acc hcur hacc
    cases cur with
    | none => rw [parseLoop_nil_none]; exact hacc
    | some b =>
      rw [parseLoop_nil_some]
      intro blk hblk ch hch
      rcases List.mem_append.mp hblk with hmem | hmem
      · exact hacc blk hmem ch hch
      · rw [List.mem_singleton] at hmem
        subst hmem
        exact hcur ch hch
  | cons l rest ih =>
    intro i cur acc hcur hacc
    by_cases hsk : skippable l = true
    · rw [parseLoop_cons_skip hsk]
      exact ih (i + 1) cur acc hcur hacc
    · have hsk' : skippable l = false := by simpa using hsk
      have hsafe : skippable (redact_line l).1 = false := by
        rw [skippable_redact_line]
        exact hsk'
      by_cases hch : is_child l = true
      · cases cur with
        | none =>
          rw [parseLoop_cons_child_none hsk' hch]
          exact ih (i + 1) none acc trivial hacc
        | some b =>
          rw [parseLoop_cons_child_some hsk' hch]
          refine ih (i + 1) _ acc ?_ hacc
          intro ch hmem
          cases hb : b.lines with
          | nil =>
            rw [hb] at hmem
            simp only [List.nil_append, List.drop_succ_cons, List.drop_nil] at hmem
            cases hmem
          | cons x xs =>
            rw [hb] at hmem
            simp only [List.cons_append, List.drop_succ_cons, List.drop_zero] at hmem
            rcases List.mem_append.mp hmem with h | h
            · exact hcur ch (by rw [hb]; simpa using h)
            · rw [List.mem_singleton] at h
              subst h
              exact hsafe
      · have hch' : is_child l = false := by simpa using hch
        cases cur with
        | none =>
          rw [parseLoop_cons_header_none hsk' hch']
          refine ih (i + 1) _ acc ?_ hacc
          intro ch hmem
          simp at hmem
        | some b =>
          rw [parseLoop_cons_header_some hsk' hch']
          refine ih (i + 1) _ _ ?_ ?_
          · intro ch hmem
            simp at hmem
          · intro blk hblk ch hch2
            rcases List.mem_append.mp hblk with hmem | hmem
            · exact hacc blk hmem ch hch2
            · rw [List.mem_singleton] at hmem
              subst hmem
              exact hcur ch hch2

/-- C6: a line that is blank after trimming or whose trimmed form starts with
`!` is transparent: deleting all such lines leaves every block's content
(parent, type, body, text, secret flag) unchanged — the skipped lines neither
close nor extend nor open blocks, so an indented line after a skipped line
still joins the block of the last seen header — and no skippable line is ever
stored as a block body line. -/
theorem comment_blank_lines_transparent (lines : List Str) :
    (parse lines).map blockContent =
      (parse (lines.filter (fun l => !skippable l))).map blockContent
    ∧ ∀ b ∈ parse lines, ∀ ch ∈ b.children, skippable ch = false :=
  ⟨parseLoop_skip_invariant lines 0 0 none none [] [] rfl rfl,
   parseLoop_children_ok lines 0 none [] trivial
     (fun b hb => absurd hb (List.not_mem_nil b))⟩

/-- Concrete instance of `comment_blank_lines_transparent`: a comment line
inside an indented stanza is dropped, its indented follower still joins the
block of the preceding header, and the body line is itself non-skippable. -/
theorem comment_blank_lines_transparent_witness :
    ((parse [S "a", S "!", S " c", S "b"]).map blockContent =
      (parse ([S "a", S "!", S " c", S "b"].filter (fun l => !skippable l))).map
        blockContent)
    ∧ skippable (S " c") = false :=
  ⟨(comment_blank_lines_transparent [S "a", S "!", S " c", S "b"]).1,
   (comment_blank_lines_transparent [S "a", S "!", S " c", S "b"]).2
     ⟨S "a\n c", S "a", S "a", [S " c"], 0, 2, false⟩ (by decide) (S " c") (by decide)⟩

/-! ## C10: the `line_end` bookkeeping -/

theorem parseLoop_line_end_spec :
    ∀ ls : List Str, ∀ i : Nat, ∀ cur : Option OpenBlock, ∀ acc : List ConfigBlock,
      (cur = none → acc = []) →
      (∀ b, cur = some b → b.start + 1 ≤ i ∧
        (acc = [] ∨ ∃ hne : acc ≠ [], (acc.getLast hne).line_end + 1 = b.start)) →
      acc.Chain' (fun x y => x.line_end + 1 = y.line_start) →
      (parseLoop ls i cur acc).Chain' (fun x y => x.line_end + 1 = y.line_start)
      ∧ ∀ hne : parseLoop ls i cur acc ≠ [],
          ((parseLoop ls i cur acc).getLast hne).line_end = i + ls.length := by
  intro ls
  induction ls with
  | nil =>
    intro i cur acc hnone hsome hchain
    cases cur with
    | none =>
      have hacc : acc = [] := hnone rfl
      subst hacc
      rw [parseLoop_nil_none]
      exact ⟨List.chain'_nil, fun hne => absurd rfl hne⟩
    | some b =>
      obtain ⟨hle, hlink⟩ := hsome b rfl
      rw [parseLoop_nil_some]
      constructor
      · rw [List.chain'_append]
        refine ⟨hchain, List.chain'_singleton _, ?_⟩
        intro x hx y hy
        simp only [List.head?_cons, Option.mem_def, Option.some.injEq] at hy
        subst hy
        rcases hlink with hacc | ⟨hne, hlast⟩
        · subst hacc; simp at hx
        · rw [List.getLast?_eq_getLast _ hne] at hx
          simp only [Option.mem_def, Option.some.injEq] at hx
          subst hx
          exact hlast
      · intro hne
        rw [List.getLast_append]
        simp [commit_block]
  | cons l rest ih =>
    intro i cur acc hnone hsome hchain
    by_cases hsk : skippable l = true
    · rw [parseLoop_cons_skip hsk]
      have := ih (i + 1) cur acc hnone
        (fun b hb => ⟨(hsome b hb).1.trans (Nat.le_succ i), (hsome b hb).2⟩) hchain
      refine ⟨this.1, fun hne => ?_⟩
      rw [this.2 hne]
      simp [List.length_cons]
      omega
    · have hsk' : skippable l = false := by simpa using hsk
      by_cases hch : is_child l = true
      · cases cur with
        | none =>
          rw [parseLoop_cons_child_none hsk' hch]
          have := ih (i + 1) none acc hnone (by intro b hb; cases hb) hchain
          refine ⟨this.1, fun hne => ?_⟩
          rw [this.2 hne]
          simp [List.length_cons]
          omega
        | some b =>
          rw [parseLoop_cons_child_some hsk' hch]
          have := ih (i + 1)
            (some ⟨b.parent, b.lines ++ [(redact_line l).1], b.start,
              b.hs || (redact_line l).2⟩) acc (by intro h; cases h)
            (by
              intro b' hb'
              obtain rfl := Option.some.inj hb'
              exact ⟨(hsome b rfl).1.trans (Nat.le_succ i), (hsome b rfl).2⟩) hchain
          refine ⟨this.1, fun hne => ?_⟩
          rw [this.2 hne]
          simp [List.length_cons]
          omega
      · have hch' : is_child l = false := by simpa using hch
        cases cur with
        | none =>
          rw [parseLoop_cons_header_none hsk' hch']
          have := ih (i + 1)
            (some ⟨(redact_line l).1, [(redact_line l).1], i, (redact_line l).2⟩)
            acc (by intro h; cases h)
            (by
              intro b' hb'
              obtain rfl := Option.some.inj hb'
              exact ⟨Nat.le_refl _, Or.inl (hnone rfl)⟩) hchain
          refine ⟨this.1, fun hne => ?_⟩
          rw [this.2 hne]
          simp [List.length_cons]
          omega
        | some b =>
          obtain ⟨hle, hlink⟩ := hsome b rfl
          rw [parseLoop_cons_header_some hsk' hch']
          have hchain' : (acc ++ [commit_block b.parent b.lines b.start (i - 1)
              (b.hs || (redact_line l).2)]).Chain'
              (fun x y => x.line_end + 1 = y.line_start) := by
            rw [List.chain'_append]
            refine ⟨hchain, List.chain'_singleton _, ?_⟩
            intro x hx y hy
            simp only [List.head?_cons, Option.mem_def, Option.some.injEq] at hy
            subst hy
            rcases hlink with hacc | ⟨hne, hlast⟩
            · subst hacc; simp at hx
            · rw [List.getLast?_eq_getLast _ hne] at hx
              simp only [Option.mem_def, Option.some.injEq] at hx
              subst hx
              exact hlast
          have := ih (i + 1)
            (some ⟨(redact_line l).1, [(redact_line l).1], i, (redact_line l).2⟩)
            (acc ++ [commit_block b.parent b.lines b.start (i - 1)
              (b.hs || (redact_line l).2)]) (by intro h; cases h)
            (by
              intro b' hb'
              obtain rfl := Option.some.inj hb'
              refine ⟨Nat.le_refl _, Or.inr ⟨by simp, ?_⟩⟩
              rw [List.getLast_append]
              show i - 1 + 1 = i
              omega) hchain'
          refine ⟨this.1, fun hne => ?_⟩
          rw [this.2 hne]
          simp [List.length_cons]
          omega

/-- C10: blocks are adjacent — every non-final block's `line_end` is one less
than the next block's `line_start` (the zero-based index of the line just
before the next header, which may be a skipped blank/comment line, so not in
general the index of the block's own last stored line) — and the final
block's `line_end` is the total number of input lines, one past the zero-based
index of the last line. -/
theorem line_end_spec (lines : List Str) :
    (parse lines).Chain' (fun b b' => b.line_end + 1 = b'.line_start)
    ∧ ∀ hne : parse lines ≠ [],
        ((parse lines).getLast hne).line_end = lines.length := by
  unfold parse
  have h := parseLoop_line_end_spec lines 0 none [] (fun _ => rfl)
    (fun b hb => by cases hb) List.chain'_nil
  refine ⟨h.1, fun hne => ?_⟩
  rw [h.2 hne]
  omega

/-- Concrete instance of `line_end_spec`: the first block ends at index 2 (the
skipped comment line sits between its last stored line and the next header at
index 3), and the last block ends at 4, the total line count. -/
theorem line_end_spec_witness :
    (parse [S "a", S "!", S " c", S "b"]).Chain'
      (fun b b' => b.line_end + 1 = b'.line_start)
    ∧ ((parse [S "a", S "!", S " c", S "b"]).getLast (by decide)).line_end =
        [S "a", S "!", S " c", S "b"].length :=
  ⟨(line_end_spec [S "a", S "!", S " c", S "b"]).1,
   (line_end_spec [S "a", S "!", S " c", S "b"]).2 (by decide)⟩

/-! ## C5: redaction idempotence

The development shows that a fully redacted line matches none of the five
patterns again.  `Bad P s` says pattern `P` still has a match somewhere in
`s`; the key lemmas are that one `reSub` pass removes all matches of its own
pattern and that later passes cannot manufacture a match of an earlier
pattern (their replacements insert `[REDACTED]`, whose brackets can occur in
no match). -/

/-- Pattern `P` matches somewhere inside `s`: some alternative followed by the
literal middle and at least one run character occurs as an infix. -/
def Bad (P : SecretPattern) (s : Str) : Prop :=
  ∃ a ∈ P.alts, ∃ c, P.cls c = true ∧ (a ++ P.mid ++ [c]) <:+: s

theorem bad_word_ne_nil {P : SecretPattern} {a : Str} {c : Char} :
    a ++ P.mid ++ [c] ≠ [] := by
  simp

theorem bad_cons_of_bad {P : SecretPattern} {c : Char} {cs : Str}
    (h : Bad P cs) : Bad P (c :: cs) := by
  obtain ⟨a, ha, ch, hcls, hw⟩ := h
  obtain ⟨u, v, huv⟩ := hw
  exact ⟨a, ha, ch, hcls, c :: u, v, by rw [← huv]; rfl⟩

theorem bad_of_suffix {P : SecretPattern} {s t : Str}
    (hst : s <:+ t) (h : Bad P s) : Bad P t := by
  obtain ⟨a, ha, ch, hcls, hw⟩ := h
  exact ⟨a, ha, ch, hcls, hw.trans hst.isInfix⟩

/-- Splitting a prefix of an append. -/
theorem prefix_append_split {α : Type} {w X Y : List α} (h : w <+: X ++ Y) :
    w <+: X ∨ ∃ w2, w = X ++ w2 ∧ w2 <+: Y := by
  induction X generalizing w with
  | nil =>
    right
    exact ⟨w, rfl, by simpa using h⟩
  | cons x xs ih =>
    cases w with
    | nil => left; exact List.nil_prefix
    | cons b bs =>
      obtain ⟨t, ht⟩ := h
      rw [List.cons_append, List.cons_append] at ht
      obtain ⟨rfl, ht'⟩ := List.cons.injEq .. ▸ ht
      rcases ih ⟨t, ht'⟩ with hp | ⟨w2, rfl, hw2⟩
      · left
        obtain ⟨u, hu⟩ := hp
        exact ⟨u, by rw [List.cons_append, hu]⟩
      · right
        exact ⟨w2, rfl, hw2⟩

/-- A prefix of `A ++ b :: B` avoiding `b` is a prefix of `A`. -/
theorem prefix_no_char {α : Type} [DecidableEq α] {w A B : List α} {b : α}
    (hb : b ∉ w) (h : w <+: A ++ b :: B) : w <+: A := by
  rcases prefix_append_split h with hp | ⟨w2, rfl, hw2⟩
  · exact hp
  · cases w2 with
    | nil => simpa using List.prefix_append A ([] : List α)
    | cons x xs =>
      obtain ⟨t, ht⟩ := hw2
      rw [List.cons_append] at ht
      obtain ⟨rfl, -⟩ := List.cons.injEq .. ▸ ht
      exact absurd (List.mem_append.mpr (Or.inr (List.mem_cons_self ..))) hb

/-- Splitting an infix of an append: inside the left part, inside the right
part, or straddling the seam. -/
theorem infix_append_split {α : Type} {w X Y : List α} (h : w <:+: X ++ Y) :
    w <:+: X ∨ w <:+: Y
      ∨ ∃ w1 w2, w = w1 ++ w2 ∧ w1 ≠ [] ∧ w2 ≠ [] ∧ w1 <:+ X ∧ w2 <+: Y := by
  induction X generalizing w with
  | nil => right; left; simpa using h
  | cons x xs ih =>
    rw [List.cons_append] at h
    rcases List.infix_cons_iff.mp h with hp | hin
    · -- w is a prefix of x :: (xs ++ Y)
      cases w with
      | nil => left; exact List.nil_infix
      | cons b bs =>
        obtain ⟨t, ht⟩ := hp
        rw [List.cons_append] at ht
        obtain ⟨rfl, ht'⟩ := List.cons.injEq .. ▸ ht
        rcases prefix_append_split ⟨t, ht'⟩ with hbs | ⟨w2, rfl, hw2⟩
        · left
          obtain ⟨u, hu⟩ := hbs
          exact (show b :: bs <+: b :: xs from ⟨u, by rw [List.cons_append, hu]⟩).isInfix
        · by_cases hw2nil : w2 = []
          · left
            subst hw2nil
            rw [List.append_nil]
          · right; right
            exact ⟨b :: xs, w2, rfl, by simp, hw2nil, List.suffix_refl _, hw2⟩
    · rcases ih hin with h1 | h2 | ⟨w1, w2, rfl, hw1, hw2, hs, hp2⟩
      · left
        exact h1.trans ⟨[x], [], by simp⟩
      · right; left; exact h2
      · right; right
        refine ⟨w1, w2, rfl, hw1, hw2, hs.trans ?_, hp2⟩
        exact ⟨[x], rfl⟩

/-- An infix of `X ++ b :: Y` avoiding `b` lies in `X` or in `Y`. -/
theorem infix_split_char {α : Type} [DecidableEq α] {w X Y : List α} {b : α}
    (hb : b ∉ w) (h : w <:+: X ++ b :: Y) : w <:+: X ∨ w <:+: Y := by
  rcases infix_append_split h with h1 | h2 | ⟨w1, w2, rfl, hw1, hw2, hs, hp⟩
  · exact Or.inl h1
  · rcases List.infix_cons_iff.mp h2 with hp | hin
    · cases w with
      | nil => exact Or.inl List.nil_infix
      | cons c cs =>
        obtain ⟨t, ht⟩ := hp
        rw [List.cons_append] at ht
        obtain ⟨rfl, -⟩ := List.cons.injEq .. ▸ ht
        exact absurd (List.mem_cons_self ..) hb
    · exact Or.inr hin
  · cases w2 with
    | nil => exact absurd rfl hw2
    | cons c cs =>
      obtain ⟨t, ht⟩ := hp
      rw [List.cons_append] at ht
      obtain ⟨rfl, -⟩ := List.cons.injEq .. ▸ ht
      exact absurd (List.mem_append.mpr (Or.inr (List.mem_cons_self ..))) hb

/-- A nonempty suffix of `X ++ [b]` contains `b`. -/
theorem suffix_concat_mem {α : Type} {w X : List α} {b : α}
    (h : w <:+ X ++ [b]) : w = [] ∨ b ∈ w := by
  cases w with
  | nil => exact Or.inl rfl
  | cons c cs =>
    right
    have hp : (c :: cs).reverse <+: (X ++ [b]).reverse := List.reverse_prefix.mpr h
    rw [List.reverse_append, List.reverse_singleton, List.singleton_append] at hp
    cases hrev : (c :: cs).reverse with
    | nil => simp at hrev
    | cons d ds =>
      rw [hrev] at hp
      obtain ⟨t, ht⟩ := hp
      rw [List.cons_append] at ht
      obtain ⟨rfl, -⟩ := List.cons.injEq .. ▸ ht
      have hd : d ∈ (c :: cs).reverse := by
        rw [hrev]
        exact List.mem_cons_self ..
      rw [List.mem_reverse] at hd
      exact hd

/-- No alternative of `P` is a (weak) prefix of a different one. -/
def PairwiseFreeAlts (P : SecretPattern) : Prop :=
  ∀ a ∈ P.alts, ∀ b ∈ P.alts, a <+: b → a = b

theorem altMatch_finds {alts : List Str}
    (hfree : ∀ x ∈ alts, ∀ y ∈ alts, x <+: y → x = y)
    {s a : Str} (ha : a ∈ alts) (hpre : a <+: s) :
    ∃ r1, altMatch alts s = some (a, r1) ∧ s = a ++ r1 := by
  induction alts with
  | nil => cases ha
  | cons b bs ih =>
    unfold altMatch
    by_cases hb : b.isPrefixOf s
    · have hbpre : b <+: s := List.isPrefixOf_iff_prefix.mp hb
      have hab : a = b := by
        rcases List.mem_cons.mp ha with rfl | hmem
        · rfl
        · have hcomp := List.prefix_or_prefix_of_prefix hpre hbpre
          rcases hcomp with h1 | h2
          · exact hfree a ha b (List.mem_cons_self ..) h1
          · exact (hfree b (List.mem_cons_self ..) a ha h2).symm
      subst hab
      obtain ⟨t, ht⟩ := hpre
      refine ⟨s.drop a.length, by simp [hb], ?_⟩
      rw [← ht, List.drop_left]
    · rcases List.mem_cons.mp ha with rfl | hmem
      · exact absurd (List.isPrefixOf_iff_prefix.mpr hpre) hb
      · simp only [hb, Bool.false_eq_true, if_false]
        exact ih (fun x hx y hy => hfree x (List.mem_cons_of_mem _ hx)
          y (List.mem_cons_of_mem _ hy)) hmem

theorem pMatch_ne_none_of_prefix {P : SecretPattern} (hP : PairwiseFreeAlts P)
    {s a : Str} {c : Char} (ha : a ∈ P.alts) (hcls : P.cls c = true)
    (hpre : (a ++ P.mid ++ [c]) <+: s) : pMatch P s ≠ none := by
  have hapre : a <+: s := by
    obtain ⟨t, ht⟩ := hpre
    exact ⟨P.mid ++ [c] ++ t, by rw [← ht]; simp⟩
  obtain ⟨r1, hmatch, hs⟩ := altMatch_finds hP ha hapre
  have hmidpre : P.mid <+: r1 := by
    obtain ⟨t, ht⟩ := hpre
    refine ⟨[c] ++ t, ?_⟩
    have hmid : a ++ (P.mid ++ ([c] ++ t)) = a ++ r1 := by
      rw [← hs, ← ht]
      simp
    exact List.append_cancel_left hmid
  have hipf : List.isPrefixOf P.mid r1 = true := List.isPrefixOf_iff_prefix.mpr hmidpre
  obtain ⟨u, hu⟩ := hmidpre
  have hdrop : r1.drop P.mid.length = u := by rw [← hu, List.drop_left]
  have huc : u = c :: u.tail := by
    obtain ⟨t, ht⟩ := hpre
    have hmid : a ++ (P.mid ++ ([c] ++ t)) = a ++ (P.mid ++ u) := by
      rw [hu, ← hs, ← ht]
      simp
    have h2 : [c] ++ t = u := List.append_cancel_left (List.append_cancel_left hmid)
    rw [← h2]
    rfl
  unfold pMatch
  simp only [hmatch, hipf, if_true, hdrop]
  rw [huc, List.takeWhile_cons_of_pos hcls]
  simp

theorem bad_of_pMatch_some {P : SecretPattern} {s : Str} {pr : Str × Str}
    (h : pMatch P s = some pr) : Bad P s := by
  obtain ⟨rep, rest⟩ := pr
  obtain ⟨a, run, ha, hs, hrep, hrun, hcls⟩ := pMatch_some_decomp h
  cases run with
  | nil => exact absurd rfl hrun
  | cons rc run' =>
    refine ⟨a, ha, rc, hcls rc (List.mem_cons_self ..), ?_⟩
    rw [hs]
    exact (show (a ++ P.mid ++ [rc]) <+: a ++ P.mid ++ (rc :: run' ++ rest) from
      ⟨run' ++ rest, by simp⟩).isInfix

theorem reSub_eq_of_not_bad (P : SecretPattern) :
    ∀ s, ¬ Bad P s → reSub P s = s := by
  suffices key : ∀ n, ∀ s : Str, s.length = n → ¬ Bad P s → reSub P s = s by
    intro s
    exact key s.length s rfl
  intro n
  induction n using Nat.strong_induction_on with
  | _ n ih =>
    intro s hn hbad
    cases s with
    | nil => rfl
    | cons c cs =>
      subst hn
      cases hp : pMatch P (c :: cs) with
      | some pr => exact absurd (bad_of_pMatch_some hp) hbad
      | none =>
        rw [reSub_cons_none P hp,
          ih cs.length (by simp) cs rfl (fun hb => hbad (bad_cons_of_bad hb))]

/-- The bracket that every replacement inserts. -/
theorem RED_decomp : RED = '[' :: S "REDACTED]" := by decide

theorem RED_decomp2 : S "REDACTED]" = S "REDACTED" ++ [']'] := by decide

/-- A `reSub` pass either changes nothing or agrees with its input up to the
first inserted `[`. -/
theorem reSub_divergence (P : SecretPattern) :
    ∀ s, reSub P s = s
      ∨ ∃ v t1 t2, s = v ++ t1 ∧ reSub P s = v ++ '[' :: t2 := by
  suffices key : ∀ n, ∀ s : Str, s.length = n → (reSub P s = s
      ∨ ∃ v t1 t2, s = v ++ t1 ∧ reSub P s = v ++ '[' :: t2) by
    intro s
    exact key s.length s rfl
  intro n
  induction n using Nat.strong_induction_on with
  | _ n ih =>
    intro s hn
    cases s with
    | nil => left; rfl
    | cons c cs =>
      subst hn
      cases hp : pMatch P (c :: cs) with
      | none =>
        rcases ih cs.length (by simp) cs rfl with heq | ⟨v, t1, t2, hcs, hr⟩
        · left
          rw [reSub_cons_none P hp, heq]
        · right
          exact ⟨c :: v, t1, t2, by rw [List.cons_append, ← hcs],
            by rw [reSub_cons_none P hp, hr]; rfl⟩
      | some pr =>
        obtain ⟨rep, rest⟩ := pr
        obtain ⟨a, run, ha, hs, hrep, hrun, hcls⟩ := pMatch_some_decomp hp
        right
        refine ⟨a ++ P.mid, run ++ rest, S "REDACTED]" ++ reSub P rest, ?_, ?_⟩
        · rw [hs, List.append_assoc]
        · rw [reSub_cons_some P hp, hrep, RED_decomp]
          simp

/-- No bracket occurs in anything pattern `P` can match. -/
def BracketFree (P : SecretPattern) : Prop :=
  (∀ a ∈ P.alts, '[' ∉ a ∧ ']' ∉ a) ∧ ('[' ∉ P.mid ∧ ']' ∉ P.mid)
    ∧ P.cls '[' = false ∧ P.cls ']' = false

/-- No word of `Q` occurs in `a ++ mid` for a strictly longer alternative
`a` — the only way a fresh `Q`-match could sit inside `Q`'s own replacement
prefix. -/
def SelfSafe (Q : SecretPattern) : Prop :=
  ∀ a ∈ Q.alts, ∀ b ∈ Q.alts,
    ¬ ((b ++ Q.mid) <:+: (a ++ Q.mid) ∧ b.length + 1 ≤ a.length)

/-- No word of `P` occurs in the literal part of a `Q`-replacement. -/
def CrossSafe (P Q : SecretPattern) : Prop :=
  ∀ a ∈ Q.alts, ∀ b ∈ P.alts, ¬ (b ++ P.mid) <:+: (a ++ Q.mid)

/-- No word of `P` occurs in `REDACTED`. -/
def RedSafe (P : SecretPattern) : Prop :=
  ∀ b ∈ P.alts, ¬ (b ++ P.mid) <:+: S "REDACTED"

theorem bad_word_no_bracket {P : SecretPattern} (hBF : BracketFree P)
    {a : Str} {c : Char} (ha : a ∈ P.alts) (hcls : P.cls c = true) :
    '[' ∉ (a ++ P.mid ++ [c]) ∧ ']' ∉ (a ++ P.mid ++ [c]) := by
  obtain ⟨h1, ⟨h2l, h2r⟩, h3l, h3r⟩ := hBF
  constructor <;> intro hmem <;>
    rcases List.mem_append.mp hmem with hm | hm
  · rcases List.mem_append.mp hm with hm' | hm'
    · exact absurd hm' (h1 a ha).1
    · exact absurd hm' h2l
  · rw [List.mem_singleton] at hm
    rw [← hm] at hcls
    rw [hcls] at h3l
    cases h3l
  · rcases List.mem_append.mp hm with hm' | hm'
    · exact absurd hm' (h1 a ha).2
    · exact absurd hm' h2r
  · rw [List.mem_singleton] at hm
    rw [← hm] at hcls
    rw [hcls] at h3r
    cases h3r

/-- The anatomy of a replacement, split before the closing bracket. -/
theorem rep_concat (a mid : Str) :
    a ++ mid ++ RED = (a ++ mid ++ ('[' :: S "REDACTED")) ++ [']'] := by
  have h : RED = ('[' :: S "REDACTED") ++ [']'] := by decide
  rw [h, ← List.append_assoc]

/-- The anatomy of a replacement, split at the opening bracket. -/
theorem rep_split (a mid : Str) :
    a ++ mid ++ RED = (a ++ mid) ++ ('[' :: (S "REDACTED" ++ [']'])) := by
  have h : RED = '[' :: (S "REDACTED" ++ [']']) := by decide
  rw [h, List.append_assoc]

/-- A match word inside a replacement must sit inside its literal part. -/
theorem bad_word_in_rep {P Q : SecretPattern} {a b : Str} {c : Char}
    (hBF : BracketFree P) (hred : RedSafe P) (hb : b ∈ P.alts)
    (hcls : P.cls c = true)
    (hw : (b ++ P.mid ++ [c]) <:+: (a ++ Q.mid ++ RED)) :
    (b ++ P.mid ++ [c]) <:+: (a ++ Q.mid) := by
  have hnb := bad_word_no_bracket hBF hb hcls
  rw [rep_split] at hw
  rcases infix_split_char hnb.1 hw with h1 | h2
  · exact h1
  · have h2' : (b ++ P.mid ++ [c]) <:+: (S "REDACTED" ++ ']' :: []) := by
      simpa using h2
    rcases infix_split_char hnb.2 h2' with h3 | h4
    · have hbm : (b ++ P.mid) <:+: S "REDACTED" := by
        refine List.IsPrefix.isInfix ?_ |>.trans h3
        exact ⟨[c], by simp⟩
      exact absurd hbm (hred b hb)
    · have := List.eq_nil_of_infix_nil h4
      exact absurd this bad_word_ne_nil

/-- One pass of `reSub Q` leaves no `Q`-match behind. -/
theorem not_bad_reSub_self (Q : SecretPattern) (hBF : BracketFree Q)
    (hfree : PairwiseFreeAlts Q) (hself : SelfSafe Q) (hred : RedSafe Q) :
    ∀ s, ¬ Bad Q (reSub Q s) := by
  suffices key : ∀ n, ∀ s : Str, s.length = n → ¬ Bad Q (reSub Q s) by
    intro s
    exact key s.length s rfl
  intro n
  induction n using Nat.strong_induction_on with
  | _ n ih =>
    intro s hn
    cases s with
    | nil =>
      rintro ⟨a, ha, ch, hcls, hw⟩
      exact absurd (List.eq_nil_of_infix_nil hw) bad_word_ne_nil
    | cons c cs =>
      subst hn
      cases hp : pMatch Q (c :: cs) with
      | none =>
        rw [reSub_cons_none Q hp]
        rintro ⟨a, ha, ch, hcls, hw⟩
        rcases List.infix_cons_iff.mp hw with hpre | hin
        · have hnb := bad_word_no_bracket hBF ha hcls
          rcases reSub_divergence Q cs with heq | ⟨v, t1, t2, hcs, hr⟩
          · rw [heq] at hpre
            exact pMatch_ne_none_of_prefix hfree ha hcls hpre hp
          · rw [hr] at hpre
            have hpre2 : (a ++ Q.mid ++ [ch]) <+: (c :: v) ++ '[' :: t2 := by
              simpa using hpre
            have hpre3 := prefix_no_char hnb.1 hpre2
            have hfin : (a ++ Q.mid ++ [ch]) <+: c :: cs := by
              rw [hcs]
              exact hpre3.trans ⟨t1, by simp⟩
            exact pMatch_ne_none_of_prefix hfree ha hcls hfin hp
        · exact ih cs.length (by simp) cs rfl ⟨a, ha, ch, hcls, hin⟩
      | some pr =>
        obtain ⟨rep, rest⟩ := pr
        have hlt : rest.length < (c :: cs).length := pMatch_rest_lt Q (c :: cs) hp
        obtain ⟨a0, run, ha0, hs, hrep, hrun, hclsrun⟩ := pMatch_some_decomp hp
        rw [reSub_cons_some Q hp, hrep]
        rintro ⟨a', ha', ch, hcls, hw⟩
        rcases infix_append_split hw with h1 | h2 | ⟨w1, w2, hw12, hw1ne, hw2ne, hsuf, hpre⟩
        · have hin2 := bad_word_in_rep hBF hred ha' hcls h1
          have hlen := hin2.length_le
          simp only [List.length_append, List.length_cons, List.length_nil] at hlen
          refine hself a0 ha0 a' ha' ⟨?_, by omega⟩
          refine List.IsPrefix.isInfix ?_ |>.trans hin2
          exact ⟨[ch], by simp⟩
        · exact ih rest.length (by omega) rest rfl ⟨a', ha', ch, hcls, h2⟩
        · rw [rep_concat] at hsuf
          rcases suffix_concat_mem hsuf with hnil | hmem
          · exact absurd hnil hw1ne
          · have hnb := bad_word_no_bracket hBF ha' hcls
            rw [hw12] at hnb
            exact absurd (List.mem_append.mpr (Or.inl hmem)) hnb.2

/-- A pass of `reSub Q` cannot create a match of a pattern `P` that had none,
provided no `P`-word fits inside `Q`'s replacement. -/
theorem not_bad_reSub_other (P Q : SecretPattern) (hBF : BracketFree P)
    (hcross : CrossSafe P Q) (hred : RedSafe P) :
    ∀ s, ¬ Bad P s → ¬ Bad P (reSub Q s) := by
  suffices key : ∀ n, ∀ s : Str, s.length = n → ¬ Bad P s → ¬ Bad P (reSub Q s) by
    intro s
    exact key s.length s rfl
  intro n
  induction n using Nat.strong_induction_on with
  | _ n ih =>
    intro s hn hbad
    cases s with
    | nil =>
      rintro ⟨a, ha, ch, hcls, hw⟩
      exact absurd (List.eq_nil_of_infix_nil hw) bad_word_ne_nil
    | cons c cs =>
      subst hn
      cases hp : pMatch Q (c :: cs) with
      | none =>
        rw [reSub_cons_none Q hp]
        rintro ⟨a, ha, ch, hcls, hw⟩
        rcases List.infix_cons_iff.mp hw with hpre | hin
        · have hnb := bad_word_no_bracket hBF ha hcls
          rcases reSub_divergence Q cs with heq | ⟨v, t1, t2, hcs, hr⟩
          · rw [heq] at hpre
            exact hbad ⟨a, ha, ch, hcls, hpre.isInfix⟩
          · rw [hr] at hpre
            have hpre2 : (a ++ P.mid ++ [ch]) <+: (c :: v) ++ '[' :: t2 := by
              simpa using hpre
            have hpre3 := prefix_no_char hnb.1 hpre2
            have hfin : (a ++ P.mid ++ [ch]) <+: c :: cs := by
              rw [hcs]
              exact hpre3.trans ⟨t1, by simp⟩
            exact hbad ⟨a, ha, ch, hcls, hfin.isInfix⟩
        · exact ih cs.length (by simp) cs rfl
            (fun hb => hbad (bad_cons_of_bad hb)) ⟨a, ha, ch, hcls, hin⟩
      | some pr =>
        obtain ⟨rep, rest⟩ := pr
        have hlt : rest.length < (c :: cs).length := pMatch_rest_lt Q (c :: cs) hp
        obtain ⟨a0, run, ha0, hs, hrep, hrun, hclsrun⟩ := pMatch_some_decomp hp
        have hrestsuf : rest <:+ c :: cs := by
          rw [hs]
          exact ⟨a0 ++ Q.mid ++ run, by simp⟩
        rw [reSub_cons_some Q hp, hrep]
        rintro ⟨a', ha', ch, hcls, hw⟩
        rcases infix_append_split hw with h1 | h2 | ⟨w1, w2, hw12, hw1ne, hw2ne, hsuf, hpre⟩
        · have hin2 := bad_word_in_rep hBF hred ha' hcls h1
          refine hcross a0 ha0 a' ha' ?_
          refine List.IsPrefix.isInfix ?_ |>.trans hin2
          exact ⟨[ch], by simp⟩
        · exact ih rest.length (by omega) rest rfl
            (fun hb => hbad (bad_of_suffix hrestsuf hb)) ⟨a', ha', ch, hcls, h2⟩
        · rw [rep_concat] at hsuf
          rcases suffix_concat_mem hsuf with hnil | hmem
          · exact absurd hnil hw1ne
          · have hnb := bad_word_no_bracket hBF ha' hcls
            rw [hw12] at hnb
            exact absurd (List.mem_append.mpr (Or.inl hmem)) hnb.2

/-- Any `key 7`-pattern match is in particular a `key`-pattern match. -/
theorem bad4_of_bad5 {s : Str} (h : Bad pat5 s) : Bad pat4 s := by
  obtain ⟨a, ha, c, hcls, hw⟩ := h
  have ha' : a = S "key 7" := by
    simpa [pat5] using ha
  subst ha'
  refine ⟨S "key", by simp [pat4], '7', by decide, ?_⟩
  refine List.IsPrefix.isInfix ?_ |>.trans hw
  exact ⟨' ' :: [c], rfl⟩

/-- C5: redaction is idempotent — redacting an already-redacted line returns
it unchanged, with the `matched` flag false: no rule of `SECRETS_PATTERNS`
fires on the output of `_redact_line`. -/
theorem redact_line_idempotent (l : Str) :
    redact_line (redact_line l).1 = ((redact_line l).1, false) := by
  have hbf1 : BracketFree pat1 := by unfold BracketFree; decide
  have hbf2 : BracketFree pat2 := by unfold BracketFree; decide
  have hbf3 : BracketFree pat3 := by unfold BracketFree; decide
  have hbf4 : BracketFree pat4 := by unfold BracketFree; decide
  have hfree1 : PairwiseFreeAlts pat1 := by unfold PairwiseFreeAlts; decide
  have hfree2 : PairwiseFreeAlts pat2 := by unfold PairwiseFreeAlts; decide
  have hfree3 : PairwiseFreeAlts pat3 := by unfold PairwiseFreeAlts; decide
  have hfree4 : PairwiseFreeAlts pat4 := by unfold PairwiseFreeAlts; decide
  have hself1 : SelfSafe pat1 := by unfold SelfSafe; decide
  have hself2 : SelfSafe pat2 := by unfold SelfSafe; decide
  have hself3 : SelfSafe pat3 := by unfold SelfSafe; decide
  have hself4 : SelfSafe pat4 := by unfold SelfSafe; decide
  have hred1 : RedSafe pat1 := by unfold RedSafe; decide
  have hred2 : RedSafe pat2 := by unfold RedSafe; decide
  have hred3 : RedSafe pat3 := by unfold RedSafe; decide
  have hred4 : RedSafe pat4 := by unfold RedSafe; decide
  have hc12 : CrossSafe pat1 pat2 := by unfold CrossSafe; decide
  have hc13 : CrossSafe pat1 pat3 := by unfold CrossSafe; decide
  have hc14 : CrossSafe pat1 pat4 := by unfold CrossSafe; decide
  have hc23 : CrossSafe pat2 pat3 := by unfold CrossSafe; decide
  have hc24 : CrossSafe pat2 pat4 := by unfold CrossSafe; decide
  have hc34 : CrossSafe pat3 pat4 := by unfold CrossSafe; decide
  set m1 := reSub pat1 l with hm1
  set m2 := reSub pat2 m1 with hm2
  set m3 := reSub pat3 m2 with hm3
  set m4 := reSub pat4 m3 with hm4
  have h1 : ¬ Bad pat1 m4 := by
    rw [hm4]
    refine not_bad_reSub_other pat1 pat4 hbf1 hc14 hred1 m3 ?_
    rw [hm3]
    refine not_bad_reSub_other pat1 pat3 hbf1 hc13 hred1 m2 ?_
    rw [hm2]
    refine not_bad_reSub_other pat1 pat2 hbf1 hc12 hred1 m1 ?_
    rw [hm1]
    exact not_bad_reSub_self pat1 hbf1 hfree1 hself1 hred1 l
  have h2 : ¬ Bad pat2 m4 := by
    rw [hm4]
    refine not_bad_reSub_other pat2 pat4 hbf2 hc24 hred2 m3 ?_
    rw [hm3]
    refine not_bad_reSub_other pat2 pat3 hbf2 hc23 hred2 m2 ?_
    rw [hm2]
    exact not_bad_reSub_self pat2 hbf2 hfree2 hself2 hred2 m1
  have h3 : ¬ Bad pat3 m4 := by
    rw [hm4]
    refine not_bad_reSub_other pat3 pat4 hbf3 hc34 hred3 m3 ?_
    rw [hm3]
    exact not_bad_reSub_self pat3 hbf3 hfree3 hself3 hred3 m2
  have h4 : ¬ Bad pat4 m4 := by
    rw [hm4]
    exact not_bad_reSub_self pat4 hbf4 hfree4 hself4 hred4 m3
  have h5 : ¬ Bad pat5 m4 := fun hb => h4 (bad4_of_bad5 hb)
  have e5 : reSub pat5 m4 = m4 := reSub_eq_of_not_bad pat5 m4 h5
  have e4 : reSub pat4 m4 = m4 := reSub_eq_of_not_bad pat4 m4 h4
  have e3 : reSub pat3 m4 = m4 := reSub_eq_of_not_bad pat3 m4 h3
  have e2 : reSub pat2 m4 = m4 := reSub_eq_of_not_bad pat2 m4 h2
  have e1 : reSub pat1 m4 = m4 := reSub_eq_of_not_bad pat1 m4 h1
  have hfst : (redact_line l).1 = m4 := by
    show reSub pat5 m4 = m4
    exact e5
  rw [hfst]
  show SECRETS.foldl
    (fun acc P => ((reSub P acc.1), acc.2 || decide ((reSub P acc.1) ≠ acc.1)))
    (m4, false) = (m4, false)
  simp only [SECRETS, List.foldl_cons, List.foldl_nil, e1, e2, e3, e4, e5]
  simp

end NocCopilot
